import Mathlib

/-!
Verification development for the importmem graph engine
(src/importmem/__init__.py).

The engine builds a registry of top-level modules from an import trace
(`get_modules`), collapses dependency cycles reachable from the root and
prunes redundant edges (`collapse_modules` with helpers `_detect_loop`,
`_rename_dependency`, `_dependency_can_be_removed`), attributes memory to
each module (`_set_rss_for_module`), and renders the registry as DOT
(`print_dot`, `_dot_node_name`).

Modelling conventions:
* Python `set` objects are modelled as duplicate-free `List String` values;
  `set.add` appends when absent, `set.remove`/`set.discard` filters the
  element out.  Python set iteration order is unspecified; the model fixes
  it to the insertion order of the list.  All properties proved below are
  insensitive to this choice, and the builder is additionally modelled by a
  nondeterministic step relation quantifying over every pop order.
* A registry (Python dict from module name to `Module`) is a finite key set
  `dom : Finset String` together with a total lookup `mods`; lookups of
  names outside `dom` return stale or default data and are only ever relied
  upon under the no-dangling-edge invariant, mirroring the fact that the
  Python code indexes the dict only at keys it expects to be present.
* The import tracer (`_get_imports`) and the memory probe
  (`_imports_memory_usage`) are external collaborators per the spec and are
  passed in as function parameters.
* Loops whose termination is nontrivial carry an explicit fuel parameter;
  theorems either supply a proven-sufficient fuel (cycle collapsing) or
  hypothesise that the loop completed (edge pruning).
-/

namespace Importmem

/-- Model of `_module_name`: the first dot-separated component of an
import-path string, i.e. the longest leading run of non-dot characters. -/
def topLevel (p : String) : String :=
  ⟨p.data.takeWhile (fun c => c ≠ '.')⟩

/-- Python `set.add` on the duplicate-free list model of a set. -/
def sadd (s : List String) (x : String) : List String :=
  if x ∈ s then s else s ++ [x]

/-- Python `set.remove`/`set.discard` on the list model of a set. -/
def sdel (s : List String) (x : String) : List String :=
  s.filter (fun y => y ≠ x)

/-- Python `set.update` on the list model of a set. -/
def listUnion (s : List String) (xs : List String) : List String :=
  xs.foldl sadd s

/-- Model of the `Module` class: name, owned import paths, direct
dependencies (module names), and the two memory figures. -/
structure Module where
  name : String
  packages : List String
  dependencies : List String
  own_rss : Int
  total_rss : Int
deriving DecidableEq

/-- Fresh module as built by `Module.__init__`. -/
def freshModule (name : String) : Module :=
  ⟨name, [], [], 0, 0⟩

/-- Model of the registry dict mapping module names to modules.  `dom` is
the key set; `mods` is the lookup, meaningful on `dom`. -/
structure Registry where
  dom : Finset String
  mods : String → Module

/-- Empty registry. -/
def emptyRegistry : Registry :=
  ⟨∅, fun n => freshModule n⟩

/-- Dependency edge of the graph: `a` is a registry key and `b` is in its
dependency set. -/
def Edge (R : Registry) (a b : String) : Prop :=
  a ∈ R.dom ∧ b ∈ (R.mods a).dependencies

/-- No-dangling-edges invariant: every dependency of a registered module is
itself a registry key. -/
def NoDangling (R : Registry) : Prop :=
  ∀ x ∈ R.dom, ∀ d ∈ (R.mods x).dependencies, d ∈ R.dom

/-- No-self-loop invariant: no registered module depends on itself. -/
def NoSelfLoop (R : Registry) : Prop :=
  ∀ x ∈ R.dom, x ∉ (R.mods x).dependencies

instance : DecidablePred (NoDangling) := fun R => by
  unfold NoDangling; infer_instance

instance : DecidablePred (NoSelfLoop) := fun R => by
  unfold NoSelfLoop; infer_instance

/-! ### Graph builder (`get_modules`) -/

/-- The `mod` variable of the `get_modules` loop: the module registered
under `m`, or a fresh one when there is none yet. -/
def pickM (R : Registry) (m : String) : Module :=
  if m ∈ R.dom then R.mods m else freshModule m

/-- The popped module after one processing iteration: the import path is
recorded in `packages`, and every traced import with a top-level name
different from the module's own name becomes a dependency edge.  The
tracer `f` models `_get_imports`. -/
def procMod (f : String → List String) (R : Registry) (pkg : String) : Module :=
  let m := topLevel pkg
  let M := pickM R m
  { M with
    packages := sadd M.packages pkg,
    dependencies :=
      (f pkg).foldl
        (fun ds i => if topLevel i = M.name then ds else sadd ds (topLevel i))
        M.dependencies }

/-- One `while` iteration of `get_modules` acting on the registry after
the path `pkg` has been popped from the work queue: ensure the module
for the top-level name exists, and unless `pkg` was already recorded,
record it and its dependency edges. -/
def procReg (f : String → List String) (R : Registry) (pkg : String) : Registry :=
  let m := topLevel pkg
  let M := pickM R m
  if pkg ∈ M.packages then
    ⟨insert m R.dom, fun n => if n = m then M else R.mods n⟩
  else
    ⟨insert m R.dom, fun n => if n = m then procMod f R pkg else R.mods n⟩

/-- Work-queue entries pushed by the same iteration: every traced import of
`pkg`, or nothing when `pkg` was already recorded. -/
def procPushes (f : String → List String) (R : Registry) (pkg : String) : List String :=
  if pkg ∈ (pickM R (topLevel pkg)).packages then [] else f pkg

/-- Builder state: the work queue and the registry under construction. -/
structure BuildState where
  queue : List String
  reg : Registry

/-- Nondeterministic small step of `get_modules`: pop any entry of the work
queue and run one loop iteration on it.  Quantifying over the popped
position models the unspecified processing order. -/
def BuildStep (f : String → List String) (s t : BuildState) : Prop :=
  ∃ l pkg r, s.queue = l ++ pkg :: r ∧
    t.queue = (l ++ r) ++ procPushes f s.reg pkg ∧
    t.reg = procReg f s.reg pkg

/-- Reflexive-transitive closure of the builder step. -/
def BuildSteps (f : String → List String) : BuildState → BuildState → Prop :=
  Relation.ReflTransGen (BuildStep f)

/-- Initial builder state: the queue holds exactly the root package. -/
def startState (root_pkg : String) : BuildState :=
  ⟨[root_pkg], emptyRegistry⟩

/-- Deterministic executable `get_modules` loop, popping from the end of
the queue exactly as the Python list `pop` does; `fuel` bounds the number
of iterations. -/
def getModulesAux (f : String → List String) : Nat → BuildState → Option Registry
  | 0, _ => none
  | fuel + 1, s =>
    match s.queue.getLast? with
    | none => some s.reg
    | some pkg =>
        getModulesAux f fuel
          ⟨s.queue.dropLast ++ procPushes f s.reg pkg, procReg f s.reg pkg⟩

/-- Model of `get_modules`: run the loop from the singleton queue and pair
the registry with the root module name. -/
def getModules (f : String → List String) (fuel : Nat) (root_pkg : String) :
    Option (Registry × String) :=
  (getModulesAux f fuel (startState root_pkg)).map (fun R => (R, topLevel root_pkg))

/-! ### Cycle detection (`_detect_loop`) -/

/-- Result of `_detect_loop`: a cycle, no cycle (Python `None`), the
dangling-edge exception carrying the visited path, or exhausted fuel. -/
inductive DetectResult where
  | found (cycle : List String)
  | noLoop
  | dangling (visited : List String)
  | fuelOut
deriving DecidableEq

/-- First result of a child search that is not `None`; models the early
`return found` in the loop over dependencies of `_detect_loop`. -/
def firstFound : List DetectResult → DetectResult
  | [] => .noLoop
  | r :: rs =>
    match r with
    | .noLoop => firstFound rs
    | r => r

/-- Model of `_detect_loop` with explicit recursion fuel: if the current
name is already on the visited path, return the path segment from its first
occurrence; if it is not a registry key, raise (the `dangling` result);
otherwise search each dependency with the name appended to the path.  The
Python code mutates `visited` but pops the name again before returning
`None`, so passing the path by value is equivalent. -/
def detectAux (R : Registry) : Nat → String → List String → DetectResult
  | 0, _, _ => .fuelOut
  | fuel + 1, start, visited =>
    if start ∈ visited then
      .found (visited.drop (visited.indexOf start))
    else if start ∈ R.dom then
      firstFound
        (((R.mods start).dependencies).map
          (fun d => detectAux R fuel d (visited ++ [start])))
    else
      .dangling (visited ++ [start])

/-- Entry point of `_detect_loop`: the visited path holds pairwise distinct
registry keys, so a fuel of one more than the number of registry keys never
runs out (proved below). -/
def detect (R : Registry) (start : String) : DetectResult :=
  detectAux R (R.dom.card + 1) start []

/-! ### Cycle collapsing (`collapse_modules`, first loop) -/

/-- Model of `"\n".join`. -/
def joinNames : List String → String
  | [] => ""
  | [x] => x
  | x :: xs => x ++ "\n" ++ joinNames xs

/-- Effect of `_rename_dependency` on one module: if the old name is a
dependency, replace it by the new name. -/
def renameDep (M : Module) (old new : String) : Module :=
  if old ∈ M.dependencies then
    { M with dependencies := sadd (sdel M.dependencies old) new }
  else
    M

/-- The `for mod in loop` pass over the cycle members: each member is
renamed to the composite name in every module's dependency set by
`_rename_dependency`, and the loop variable `start_name` is retargeted to
the composite when the member equals it. -/
def renamePass (l : List String) (new : String) (p : (String → Module) × String) :
    (String → Module) × String :=
  l.foldl
    (fun p m =>
      (fun n => renameDep (p.1 n) m new, if m = p.2 then new else p.2))
    p

/-- One iteration of the collapse loop of `collapse_modules`, applied to
the cycle `l` returned by `_detect_loop`: build the composite module from
the member unions, insert it and delete the members, rename every edge to a
member into an edge to the composite while retargeting the root if it was a
member, and finally strip the composite's self-loop.  Member unions are
read from the registry before any deletion, which matches the source
because the members of a detected cycle are pairwise distinct. -/
def collapseStep (R : Registry) (root : String) (l : List String) :
    Registry × String :=
  let newName := joinNames l
  let newPackages := l.foldl (fun acc m => listUnion acc (R.mods m).packages) []
  let newDeps := l.foldl (fun acc m => listUnion acc (R.mods m).dependencies) []
  let newMod : Module := ⟨newName, newPackages, newDeps, 0, 0⟩
  let dom1 := l.foldl (fun d m => d.erase m) (insert newName R.dom)
  let mods1 : String → Module := fun n => if n = newName then newMod else R.mods n
  let st := renamePass l newName (mods1, root)
  let mods3 : String → Module := fun n =>
    if n = newName then
      { st.1 newName with
        dependencies := sdel (st.1 newName).dependencies newName }
    else st.1 n
  (⟨dom1, mods3⟩, st.2)

/-- The collapse loop: repeatedly detect and collapse a cycle reachable
from the (possibly renamed) root until none is found.  `none` signals
exhausted fuel or the dangling-edge exception of `_detect_loop`. -/
def collapseLoop : Nat → Registry → String → Option (Registry × String)
  | 0, _, _ => none
  | fuel + 1, R, root =>
    match detect R root with
    | .noLoop => some (R, root)
    | .found l =>
        let s := collapseStep R root l
        collapseLoop fuel s.1 s.2
    | .dangling _ => none
    | .fuelOut => none

/-! ### Edge pruning (`collapse_modules`, second loop) -/

/-- Model of `_dependency_can_be_removed`: some other dependency `c` of
`name` has `dep` among its own dependencies. -/
def depsRemovable (R : Registry) (name dep : String) : Prop :=
  ∃ c ∈ (R.mods name).dependencies, c ≠ dep ∧ dep ∈ (R.mods c).dependencies

instance (R : Registry) (name dep : String) : Decidable (depsRemovable R name dep) := by
  unfold depsRemovable; infer_instance

/-- Replace the dependency list of one module. -/
def updateModDeps (R : Registry) (name : String) (ds : List String) : Registry :=
  ⟨R.dom, fun n => if n = name then { R.mods name with dependencies := ds } else R.mods n⟩

/-- Inner elimination loop of the pruning phase: repeatedly find the first
removable dependency of `name` and delete it, until none remains.  Each
round removes one element of the dependency list, so the initial list
length is exactly enough fuel: if the fuel hits zero the list is empty and
the loop would stop anyway. -/
def pruneModDepsAux : Nat → Registry → String → Registry
  | 0, R, _ => R
  | fuel + 1, R, name =>
    match (R.mods name).dependencies.find? (fun d => decide (depsRemovable R name d)) with
    | none => R
    | some d =>
        pruneModDepsAux fuel (updateModDeps R name (sdel (R.mods name).dependencies d)) name

/-- Inner elimination loop with its sufficient fuel. -/
def pruneModDeps (R : Registry) (name : String) : Registry :=
  pruneModDepsAux ((R.mods name).dependencies).length R name

/-- Outer pruning traversal: pop a name from the end of the queue, run the
elimination loop on it, then push its remaining dependencies.  The
traversal keeps no visited set, so it only terminates on acyclic graphs;
`none` signals exhausted fuel. -/
def pruneLoop : Nat → Registry → List String → Option Registry
  | 0, _, _ => none
  | fuel + 1, R, queue =>
    match queue.getLast? with
    | none => some R
    | some name =>
        let R2 := pruneModDeps R name
        pruneLoop fuel R2 (queue.dropLast ++ (R2.mods name).dependencies)

/-! ### Memory attribution (`_set_rss_for_module`) -/

/-- Union of the package sets of the direct dependencies of `name`, as
accumulated by the `deps` loop of `_set_rss_for_module`. -/
def depsPackagesUnion (R : Registry) (name : String) : List String :=
  (R.mods name).dependencies.foldl (fun acc dep => listUnion acc (R.mods dep).packages) []

/-- Model of `_set_rss_for_module` for one module, with the memory probe
`probe` standing for `_imports_memory_usage` (probe failure aborts the run
in the source and is outside this model): set `total_rss` from the module's
own packages, probe the dependency package union, and store the difference
as `own_rss`, clamped to zero.  The returned flag records whether the
negative-delta warning was logged. -/
def setRssForModule (probe : List String → Int) (R : Registry) (name : String) :
    Registry × Bool :=
  let M := R.mods name
  let total := probe M.packages
  let deps := depsPackagesUnion R name
  let depsRss := probe deps
  let own := total - depsRss
  if own < 0 then
    (⟨R.dom, fun n =>
        if n = name then { M with total_rss := total, own_rss := 0 } else R.mods n⟩,
     true)
  else
    (⟨R.dom, fun n =>
        if n = name then { M with total_rss := total, own_rss := own } else R.mods n⟩,
     false)

/-! ### DOT rendering (`print_dot`, `_dot_node_name`) -/

/-- Model of the `_invalid_dot_chars` substitution: every character outside
`[0-9A-Za-z_]` becomes an underscore. -/
def sanitizeDot (s : String) : String :=
  ⟨s.data.map (fun c => if c.isAlphanum || c = '_' then c else '_')⟩

/-- Model of `_dot_node_name`. -/
def dotNodeName (uid : Nat) (name : String) : String :=
  "node" ++ toString uid ++ "_" ++ sanitizeDot name

/-- Node identifiers emitted by `print_dot` for the given modules, in
iteration order: the source initialises `counter = 0` and never increments
it, so every identifier uses `unique_id = 0`. -/
def printDotNodeIds (mods : List Module) : List String :=
  mods.map (fun m => dotNodeName 0 m.name)

/-- Two-cycle example registry used by several witness theorems: modules A
and B, each depending on the other, root A. -/
def twoCycleReg : Registry :=
  ⟨{"A", "B"}, fun n =>
    if n = "A" then ⟨"A", ["A"], ["B"], 0, 0⟩
    else if n = "B" then ⟨"B", ["B"], ["A"], 0, 0⟩
    else freshModule n⟩

/-- Measure on the visited path: registry keys not yet visited. -/
def visMeasure (R : Registry) (visited : List String) : Nat :=
  (R.dom.filter (fun n => n ∉ visited)).card

/-- Chain of dependency edges along a list of module names. -/
def DepChain (R : Registry) : List String → Prop :=
  List.Chain' (fun a b => b ∈ (R.mods a).dependencies)

/-- What `_detect_loop` promises about a returned cycle: a nonempty
duplicate-free list of registry keys, consecutive elements linked by
dependency edges, with a closing edge from the last back to the first. -/
def CycleList (R : Registry) (l : List String) : Prop :=
  l ≠ [] ∧ l.Nodup ∧ (∀ x ∈ l, x ∈ R.dom) ∧ DepChain R l ∧
    ∀ a b, l.head? = some a → l.getLast? = some b → a ∈ (R.mods b).dependencies

/-- Sequential renaming of the cycle members inside one module's dependency
set, as done by the `_rename_dependency` pass of the collapse loop. -/
def depsRen (l : List String) (new : String) (M : Module) : Module :=
  l.foldl (fun M m => renameDep M m new) M

/-- One application of the import tracer: `i` is among the imports traced
for `p`. -/
def ImpRel (f : String → List String) (p i : String) : Prop :=
  i ∈ f p

/-- An import path has been fully processed by the builder: it is recorded
in the packages of its top-level module. -/
def ProcessedR (R : Registry) (p : String) : Prop :=
  topLevel p ∈ R.dom ∧ p ∈ (R.mods (topLevel p)).packages

/-- Invariant of the `get_modules` loop, for tracer `f` and root package
`root_pkg`. -/
structure BuildInv (f : String → List String) (root_pkg : String) (s : BuildState) : Prop where
  name_eq : ∀ m ∈ s.reg.dom, (s.reg.mods m).name = m
  pack_top : ∀ m ∈ s.reg.dom, ∀ p ∈ (s.reg.mods m).packages, topLevel p = m
  pack_ne : ∀ m ∈ s.reg.dom, (s.reg.mods m).packages ≠ []
  deps_char : ∀ m ∈ s.reg.dom, ∀ d,
    d ∈ (s.reg.mods m).dependencies ↔
      (d ≠ m ∧ ∃ p ∈ (s.reg.mods m).packages, ∃ i ∈ f p, topLevel i = d)
  proc_closure : ∀ m ∈ s.reg.dom, ∀ p ∈ (s.reg.mods m).packages,
    Relation.ReflTransGen (ImpRel f) root_pkg p
  queue_closure : ∀ q ∈ s.queue, Relation.ReflTransGen (ImpRel f) root_pkg q
  imports_pending : ∀ m ∈ s.reg.dom, ∀ p ∈ (s.reg.mods m).packages, ∀ i ∈ f p,
    i ∈ s.queue ∨ ProcessedR s.reg i
  root_pending : root_pkg ∈ s.queue ∨ ProcessedR s.reg root_pkg

/-- Frame of the pruning phase: the key set is unchanged, every module
keeps its name, packages and memory figures, and dependency sets only
shrink. -/
def PruneFrame (R R2 : Registry) : Prop :=
  R2.dom = R.dom ∧
  ∀ n, (R2.mods n).name = (R.mods n).name ∧
    (R2.mods n).packages = (R.mods n).packages ∧
    (R2.mods n).own_rss = (R.mods n).own_rss ∧
    (R2.mods n).total_rss = (R.mods n).total_rss ∧
    ∀ d ∈ (R2.mods n).dependencies, d ∈ (R.mods n).dependencies

/-- Diamond registry with a redundant direct edge, used by witnesses: A
depends on B, C and D; B and C depend on D. -/
def diamondReg : Registry :=
  ⟨{"A", "B", "C", "D"}, fun n =>
    if n = "A" then ⟨"A", ["A"], ["B", "C", "D"], 0, 0⟩
    else if n = "B" then ⟨"B", ["B"], ["D"], 0, 0⟩
    else if n = "C" then ⟨"C", ["C"], ["D"], 0, 0⟩
    else if n = "D" then ⟨"D", ["D"], [], 0, 0⟩
    else freshModule n⟩

/-- Result of pruning the diamond registry from root A. -/
def diamondPruned : Registry :=
  (pruneLoop 7 diamondReg ["A"]).getD emptyRegistry

/-- Registry with one module `m` whose single dependency `d` exists, used
by the memory attribution witnesses. -/
def rssReg : Registry :=
  ⟨{"m", "d"}, fun n =>
    if n = "m" then ⟨"m", ["m"], ["d"], 0, 0⟩
    else if n = "d" then ⟨"d", ["d"], [], 0, 0⟩
    else freshModule n⟩

/-- Registry with one leaf module `m` (no dependencies). -/
def leafReg : Registry :=
  ⟨{"m"}, fun n => if n = "m" then ⟨"m", ["m"], [], 0, 0⟩ else freshModule n⟩

/-- Final state of the one-step builder run used by the order-independence
witness: tracer returns no imports, root package is `a`. -/
def c9WitnessState : BuildState :=
  ⟨[], procReg (fun _ => []) emptyRegistry "a"⟩

/-! ### Basic lemmas about the list model of sets -/

theorem mem_sadd {s : List String} {x a : String} :
    a ∈ sadd s x ↔ a ∈ s ∨ a = x := by
  unfold sadd
  by_cases h : x ∈ s
  · simp only [if_pos h]
    constructor
    · exact Or.inl
    · rintro (h2 | rfl)
      · exact h2
      · exact h
  · simp [if_neg h]

theorem sadd_ne_nil {s : List String} {x : String} : sadd s x ≠ [] := by
  unfold sadd
  split
  · intro h; simp_all
  · simp

theorem mem_sdel {s : List String} {x a : String} :
    a ∈ sdel s x ↔ a ∈ s ∧ a ≠ x := by
  unfold sdel
  simp

theorem mem_listUnion {xs : List String} :
    ∀ {s : List String} {a : String}, a ∈ listUnion s xs ↔ a ∈ s ∨ a ∈ xs := by
  unfold listUnion
  induction xs with
  | nil => simp
  | cons x t ih =>
      intro s a
      simp only [List.foldl_cons, ih, mem_sadd, List.mem_cons]
      tauto

theorem mem_unionFoldl {α : Type} {g : α → List String} :
    ∀ (l : List α) (acc : List String) (a : String),
      a ∈ l.foldl (fun acc m => listUnion acc (g m)) acc ↔
        a ∈ acc ∨ ∃ m ∈ l, a ∈ g m := by
  intro l
  induction l with
  | nil => simp
  | cons x t ih =>
      intro acc a
      simp only [List.foldl_cons, ih, mem_listUnion, List.mem_cons]
      constructor
      · rintro (⟨h | h⟩ | ⟨m, hm, hg⟩)
        · exact Or.inl h
        · exact Or.inr ⟨x, Or.inl rfl, h⟩
        · exact Or.inr ⟨m, Or.inr hm, hg⟩
      · rintro (h | ⟨m, hm | hm, hg⟩)
        · exact Or.inl (Or.inl h)
        · subst hm; exact Or.inl (Or.inr hg)
        · exact Or.inr ⟨m, hm, hg⟩

/-! ### Lemmas about `firstFound` -/

theorem firstFound_noLoop_iff {rs : List DetectResult} :
    firstFound rs = .noLoop ↔ ∀ r ∈ rs, r = .noLoop := by
  induction rs with
  | nil => simp [firstFound]
  | cons r t ih =>
      cases r <;> simp [firstFound, ih]

theorem firstFound_mem {rs : List DetectResult} (h : firstFound rs ≠ .noLoop) :
    firstFound rs ∈ rs := by
  induction rs with
  | nil => simp [firstFound] at h
  | cons r t ih =>
      cases r <;> simp_all [firstFound]

/-! ### Lemmas about `_detect_loop` -/

theorem visMeasure_append_lt {R : Registry} {visited : List String} {s : String}
    (hdom : s ∈ R.dom) (hnot : s ∉ visited) :
    visMeasure R (visited ++ [s]) < visMeasure R visited := by
  unfold visMeasure
  have hset : R.dom.filter (fun n => n ∉ visited ++ [s]) =
      (R.dom.filter (fun n => n ∉ visited)).erase s := by
    ext n
    simp only [Finset.mem_filter, Finset.mem_erase, List.mem_append,
      List.mem_singleton]
    constructor
    · rintro ⟨hn, hv⟩
      push_neg at hv
      exact ⟨hv.2, hn, hv.1⟩
    · rintro ⟨hne, hn, hv⟩
      refine ⟨hn, ?_⟩
      push_neg
      exact ⟨hv, hne⟩
  rw [hset]
  exact Finset.card_erase_lt_of_mem (by simp [Finset.mem_filter, hdom, hnot])

theorem detectAux_ne_fuelOut {R : Registry} :
    ∀ {fuel : Nat} {start : String} {visited : List String},
      visMeasure R visited < fuel → detectAux R fuel start visited ≠ .fuelOut := by
  intro fuel
  induction fuel with
  | zero => intro start visited h; omega
  | succ fuel ih =>
      intro start visited h
      unfold detectAux
      by_cases h1 : start ∈ visited
      · simp [h1]
      · by_cases h2 : start ∈ R.dom
        · simp only [if_pos h2, if_neg h1]
          intro hbad
          have hmem := @firstFound_mem
            (((R.mods start).dependencies).map
              (fun d => detectAux R fuel d (visited ++ [start]))) (by rw [hbad]; simp)
          rw [hbad] at hmem
          obtain ⟨d, _, hd⟩ := List.mem_map.mp hmem
          exact ih (visMeasure_append_lt h2 h1 |>.trans_le (Nat.lt_succ_iff.mp h)) hd
        · simp [h1, h2]

theorem detectAux_ne_dangling {R : Registry} (hnd : NoDangling R) :
    ∀ {fuel : Nat} {start : String} {visited w : List String},
      start ∈ R.dom → detectAux R fuel start visited ≠ .dangling w := by
  intro fuel
  induction fuel with
  | zero => intro start visited w _ ; simp [detectAux]
  | succ fuel ih =>
      intro start visited w hdom
      unfold detectAux
      by_cases h1 : start ∈ visited
      · simp [h1]
      · simp only [if_pos hdom, if_neg h1]
        intro hbad
        have hmem := @firstFound_mem
          (((R.mods start).dependencies).map
            (fun d => detectAux R fuel d (visited ++ [start]))) (by rw [hbad]; simp)
        rw [hbad] at hmem
        obtain ⟨d, hd, hde⟩ := List.mem_map.mp hmem
        exact ih (hnd start hdom d hd) hde

/-- Inversion of a `None` answer of `_detect_loop`: the name is new, it is
a registry key, and every dependency search below it also answered `None`. -/
theorem detectAux_noLoop_elim {R : Registry} {fuel : Nat} {start : String}
    {visited : List String} (h : detectAux R fuel start visited = .noLoop) :
    start ∉ visited ∧ start ∈ R.dom ∧
      ∃ f2, fuel = f2 + 1 ∧
        ∀ d ∈ (R.mods start).dependencies,
          detectAux R f2 d (visited ++ [start]) = .noLoop := by
  cases fuel with
  | zero => simp [detectAux] at h
  | succ f2 =>
      unfold detectAux at h
      by_cases h1 : start ∈ visited
      · simp [h1] at h
      · by_cases h2 : start ∈ R.dom
        · simp only [if_pos h2, if_neg h1] at h
          refine ⟨h1, h2, f2, rfl, ?_⟩
          intro d hd
          have := firstFound_noLoop_iff.mp h
          exact this _ (List.mem_map.mpr ⟨d, hd, rfl⟩)
        · simp [h1, h2] at h

/-- Soundness of a `found` answer of `_detect_loop`: under the invariant
that the visited path is a duplicate-free dependency chain of registry keys
leading into the current name, the returned list is a genuine cycle. -/
theorem detectAux_found_cycle {R : Registry} :
    ∀ {fuel : Nat} {start : String} {visited l : List String},
      visited.Nodup → (∀ x ∈ visited, x ∈ R.dom) →
      DepChain R (visited ++ [start]) →
      detectAux R fuel start visited = .found l → CycleList R l := by
  intro fuel
  induction fuel with
  | zero => intro start visited l _ _ _ h; simp [detectAux] at h
  | succ fuel ih =>
      intro start visited l hnd hdom hchain h
      unfold detectAux at h
      by_cases h1 : start ∈ visited
      · simp only [if_pos h1, DetectResult.found.injEq] at h
        subst h
        set idx := visited.indexOf start with hidx
        have hlt : idx < visited.length := List.indexOf_lt_length.mpr h1
        have hhead : (visited.drop idx).head? = some start := by
          rw [List.head?_drop, ← List.get?_eq_getElem?]
          exact List.indexOf_get? h1
        refine ⟨?_, ?_, ?_, ?_, ?_⟩
        · intro hnil
          rw [hnil] at hhead
          simp at hhead
        · exact hnd.sublist (List.drop_sublist idx visited)
        · intro x hx
          exact hdom x ((List.drop_sublist idx visited).subset hx)
        · exact (hchain.left_of_append).suffix (List.drop_suffix idx visited)
        · intro a b ha hb
          have haeq : a = start := by rw [hhead] at ha; exact (Option.some_injective _ ha).symm
          rw [haeq]
          have hdecomp : visited ++ [start] =
              visited.take idx ++ ((visited.drop idx) ++ [start]) := by
            rw [← List.append_assoc, List.take_append_drop]
          have hchain2 : DepChain R ((visited.drop idx) ++ [start]) := by
            rw [hdecomp] at hchain
            exact hchain.right_of_append
          have := (List.chain'_append.mp hchain2).2.2
          exact this b hb start rfl
      · by_cases h2 : start ∈ R.dom
        · simp only [if_pos h2, if_neg h1] at h
          have hmem := @firstFound_mem
            (((R.mods start).dependencies).map
              (fun d => detectAux R fuel d (visited ++ [start]))) (by rw [h]; simp)
          rw [h] at hmem
          obtain ⟨d, hd, hde⟩ := List.mem_map.mp hmem
          refine ih ?_ ?_ ?_ hde
          · simp [List.nodup_append, hnd, h1]
          · intro x hx
            rcases List.mem_append.mp hx with hx | hx
            · exact hdom x hx
            · simp at hx; subst hx; exact h2
          · rw [List.append_assoc]
            refine List.chain'_append.mpr ⟨hchain.left_of_append, ?_, ?_⟩
            · refine List.chain'_append.mpr ⟨List.chain'_singleton _, List.chain'_singleton _, ?_⟩
              intro x hx y hy
              simp at hx hy
              rw [← hx, ← hy]
              exact hd
            · intro x hx y hy
              have h3 := (List.chain'_append.mp hchain).2.2
              simp at hy
              rw [← hy]
              exact h3 x hx start (by simp)
        · simp [h1, h2] at h

/-- Completeness helper: after a `None` answer, no nonempty chain of
dependency edges from the searched name can reach the name itself or any
name on the visited path. -/
theorem detect_noLoop_path {R : Registry} {u : String} {start : String}
    (h : Relation.TransGen (Edge R) start u) :
    ∀ fuel visited, detectAux R fuel start visited = .noLoop →
      u ∉ visited ++ [start] := by
  induction h using Relation.TransGen.head_induction_on with
  | base hedge =>
      intro fuel visited hnone
      obtain ⟨hnv, hdom, f2, rfl, hchild⟩ := detectAux_noLoop_elim hnone
      have hu := hchild u hedge.2
      have := (detectAux_noLoop_elim hu).1
      exact this
  | ih hedge htrans IH =>
      rename_i a c
      intro fuel visited hnone
      obtain ⟨hnv, hdom, f2, rfl, hchild⟩ := detectAux_noLoop_elim hnone
      have hc := hchild c hedge.2
      intro hbad
      exact IH f2 (visited ++ [a]) hc (by simp at hbad ⊢; tauto)

/-- Completeness of a `None` answer of `_detect_loop`: no module reachable
from the searched name lies on a dependency cycle. -/
theorem detect_noLoop_no_cycle {R : Registry} {start u : String}
    (h : Relation.ReflTransGen (Edge R) start u) :
    ∀ fuel visited, detectAux R fuel start visited = .noLoop →
      ¬ Relation.TransGen (Edge R) u u := by
  induction h using Relation.ReflTransGen.head_induction_on with
  | refl =>
      intro fuel visited hnone hcyc
      exact detect_noLoop_path hcyc fuel visited hnone (by simp)
  | head hedge htrans IH =>
      rename_i a c
      intro fuel visited hnone
      obtain ⟨hnv, hdom, f2, rfl, hchild⟩ := detectAux_noLoop_elim hnone
      exact IH f2 (visited ++ [a]) (hchild c hedge.2)

/-! ### Lemmas about `collapse_modules` (collapse loop) -/

theorem joinNames_le : ∀ (l : List String), ∀ x ∈ l, x.length ≤ (joinNames l).length := by
  intro l
  induction l with
  | nil => simp
  | cons a t ih =>
      intro x hx
      cases t with
      | nil =>
          simp at hx
          rw [hx]
          exact le_refl _
      | cons b t2 =>
          have hlen : (joinNames (a :: b :: t2)).length =
              a.length + 1 + (joinNames (b :: t2)).length := by
            show (a ++ "\n" ++ joinNames (b :: t2)).length = _
            rw [String.length_append, String.length_append]
            rfl
          rcases List.mem_cons.mp hx with hx | hx
          · rw [hx, hlen]; omega
          · have := ih x hx
            rw [hlen]; omega

theorem joinNames_lt {l : List String} (h2 : 2 ≤ l.length) :
    ∀ x ∈ l, x.length < (joinNames l).length := by
  match l with
  | [] => simp at h2
  | [a] => simp at h2
  | a :: b :: t =>
      intro x hx
      have hlen : (joinNames (a :: b :: t)).length =
          a.length + 1 + (joinNames (b :: t)).length := by
        show (a ++ "\n" ++ joinNames (b :: t)).length = _
        rw [String.length_append, String.length_append]
        rfl
      rcases List.mem_cons.mp hx with hx | hx
      · rw [hx, hlen]; omega
      · have := joinNames_le (b :: t) x hx
        rw [hlen]; omega

theorem joinNames_not_mem {l : List String} (h2 : 2 ≤ l.length) :
    joinNames l ∉ l := by
  intro hm
  exact lt_irrefl _ (joinNames_lt h2 _ hm)

theorem cycleList_two_le {R : Registry} {l : List String} (hs : NoSelfLoop R)
    (hc : CycleList R l) : 2 ≤ l.length := by
  obtain ⟨hne, hnd, hdom, hch, hwrap⟩ := hc
  match l with
  | [] => simp at hne
  | [x] =>
      have hx := hwrap x x rfl rfl
      exact absurd hx (hs x (hdom x (by simp)))
  | a :: b :: t => simp only [List.length_cons]; omega

theorem mem_foldl_erase :
    ∀ (l : List String) (s : Finset String) (x : String),
      x ∈ l.foldl (fun d m => d.erase m) s ↔ x ∈ s ∧ x ∉ l := by
  intro l
  induction l with
  | nil => simp
  | cons a t ih =>
      intro s x
      simp only [List.foldl_cons, ih, Finset.mem_erase, List.mem_cons]
      tauto

theorem depsRen_name : ∀ (l : List String) (new : String) (M : Module),
    (depsRen l new M).name = M.name := by
  intro l
  induction l with
  | nil => intro new M; rfl
  | cons a t ih =>
      intro new M
      show (depsRen t new (renameDep M a new)).name = M.name
      rw [ih]
      unfold renameDep
      split <;> rfl

theorem depsRen_packages : ∀ (l : List String) (new : String) (M : Module),
    (depsRen l new M).packages = M.packages := by
  intro l
  induction l with
  | nil => intro new M; rfl
  | cons a t ih =>
      intro new M
      show (depsRen t new (renameDep M a new)).packages = M.packages
      rw [ih]
      unfold renameDep
      split <;> rfl

theorem mem_depsRen :
    ∀ (l : List String) {new : String}, new ∉ l → ∀ (M : Module) (d : String),
      d ∈ (depsRen l new M).dependencies ↔
        (d ∈ M.dependencies ∧ d ∉ l) ∨
          (d = new ∧ ∃ m ∈ l, m ∈ M.dependencies) := by
  intro l
  induction l with
  | nil => simp [depsRen]
  | cons a t ih =>
      intro new hnew M d
      have hna : new ≠ a := by intro h; exact hnew (by simp [h])
      have hnt : new ∉ t := by intro h; exact hnew (by simp [h])
      have hstep : depsRen (a :: t) new M = depsRen t new (renameDep M a new) := rfl
      rw [hstep, ih hnt]
      by_cases hm : a ∈ M.dependencies
      · have hdeps : (renameDep M a new).dependencies = sadd (sdel M.dependencies a) new := by
          unfold renameDep
          rw [if_pos hm]
        by_cases hdn : d = new
        · constructor
          · intro _
            exact Or.inr ⟨hdn, a, by simp, hm⟩
          · intro _
            refine Or.inl ⟨?_, fun h => hnt (hdn ▸ h)⟩
            rw [hdeps, mem_sadd]
            exact Or.inr hdn
        · constructor
          · rintro (⟨hd1, hd2⟩ | ⟨hd1, _⟩)
            · rw [hdeps, mem_sadd, mem_sdel] at hd1
              rcases hd1 with ⟨hd3, hd4⟩ | hd5
              · refine Or.inl ⟨hd3, ?_⟩
                simp only [List.mem_cons]
                push_neg
                exact ⟨hd4, hd2⟩
              · exact absurd hd5 hdn
            · exact absurd hd1 hdn
          · rintro (⟨hd1, hd2⟩ | ⟨hd1, _⟩)
            · simp only [List.mem_cons] at hd2
              push_neg at hd2
              refine Or.inl ⟨?_, hd2.2⟩
              rw [hdeps, mem_sadd, mem_sdel]
              exact Or.inl ⟨hd1, hd2.1⟩
            · exact absurd hd1 hdn
      · have hdeps : renameDep M a new = M := by
          unfold renameDep
          rw [if_neg hm]
        rw [hdeps]
        constructor
        · rintro (⟨hd1, hd2⟩ | ⟨hd1, m, hm2, hm3⟩)
          · refine Or.inl ⟨hd1, ?_⟩
            simp only [List.mem_cons]
            push_neg
            exact ⟨fun h => hm (h ▸ hd1), hd2⟩
          · exact Or.inr ⟨hd1, m, List.mem_cons_of_mem a hm2, hm3⟩
        · rintro (⟨hd1, hd2⟩ | ⟨hd1, m, hm2, hm3⟩)
          · simp only [List.mem_cons] at hd2
            push_neg at hd2
            exact Or.inl ⟨hd1, hd2.2⟩
          · rcases List.mem_cons.mp hm2 with h | h
            · exact absurd hm3 (h ▸ hm)
            · exact Or.inr ⟨hd1, m, h, hm3⟩

theorem rootRen (new : String) :
    ∀ (l : List String) (rt : String),
      l.foldl (fun rt m => if m = rt then new else rt) rt =
        if rt ∈ l then new else rt := by
  intro l
  induction l with
  | nil => simp
  | cons a t ih =>
      intro rt
      simp only [List.foldl_cons]
      by_cases ha : a = rt
      · rw [if_pos ha, ih]
        have hmem : rt ∈ a :: t := by rw [← ha]; exact List.mem_cons_self a t
        rw [if_pos hmem, ite_self]
      · rw [if_neg ha, ih]
        by_cases hrt : rt ∈ t
        · rw [if_pos hrt, if_pos (List.mem_cons_of_mem a hrt)]
        · rw [if_neg hrt, if_neg ?_]
          simp only [List.mem_cons]
          push_neg
          exact ⟨fun h => ha h.symm, hrt⟩

theorem renamePass_fst (new : String) :
    ∀ (l : List String) (p : (String → Module) × String) (n : String),
      (renamePass l new p).1 n = depsRen l new (p.1 n) := by
  intro l
  induction l with
  | nil => intro p n; rfl
  | cons a t ih =>
      intro p n
      show (renamePass t new _).1 n = _
      rw [ih]
      rfl

theorem renamePass_snd (new : String) :
    ∀ (l : List String) (p : (String → Module) × String),
      (renamePass l new p).2 =
        l.foldl (fun rt m => if m = rt then new else rt) p.2 := by
  intro l
  induction l with
  | nil => intro p; rfl
  | cons a t ih =>
      intro p
      show (renamePass t new _).2 = _
      rw [ih]
      rfl

theorem collapseStep_dom_mem {R : Registry} {root : String} {l : List String}
    {x : String} :
    x ∈ (collapseStep R root l).1.dom ↔
      (x = joinNames l ∨ x ∈ R.dom) ∧ x ∉ l := by
  have hdom : (collapseStep R root l).1.dom =
      l.foldl (fun d m => d.erase m) (insert (joinNames l) R.dom) := rfl
  rw [hdom, mem_foldl_erase]
  simp [Finset.mem_insert]

theorem collapseStep_root {R : Registry} {root : String} {l : List String} :
    (collapseStep R root l).2 = if root ∈ l then joinNames l else root := by
  have h : (collapseStep R root l).2 =
      (renamePass l (joinNames l)
        (fun n => if n = joinNames l then
          ⟨joinNames l,
            l.foldl (fun acc m => listUnion acc (R.mods m).packages) [],
            l.foldl (fun acc m => listUnion acc (R.mods m).dependencies) [], 0, 0⟩
          else R.mods n, root)).2 := rfl
  rw [h, renamePass_snd, rootRen]

theorem collapseStep_mods_ne {R : Registry} {root : String} {l : List String}
    {n : String} (h : n ≠ joinNames l) :
    (collapseStep R root l).1.mods n = depsRen l (joinNames l) (R.mods n) := by
  have heq : (collapseStep R root l).1.mods n =
      if n = joinNames l then
        { (renamePass l (joinNames l)
            (fun n => if n = joinNames l then
              ⟨joinNames l,
                l.foldl (fun acc m => listUnion acc (R.mods m).packages) [],
                l.foldl (fun acc m => listUnion acc (R.mods m).dependencies) [], 0, 0⟩
              else R.mods n, root)).1 (joinNames l) with
          dependencies :=
            sdel ((renamePass l (joinNames l)
              (fun n => if n = joinNames l then
                ⟨joinNames l,
                  l.foldl (fun acc m => listUnion acc (R.mods m).packages) [],
                  l.foldl (fun acc m => listUnion acc (R.mods m).dependencies) [], 0, 0⟩
                else R.mods n, root)).1 (joinNames l)).dependencies (joinNames l) }
      else
        (renamePass l (joinNames l)
          (fun n => if n = joinNames l then
            ⟨joinNames l,
              l.foldl (fun acc m => listUnion acc (R.mods m).packages) [],
              l.foldl (fun acc m => listUnion acc (R.mods m).dependencies) [], 0, 0⟩
            else R.mods n, root)).1 n := rfl
  rw [heq, if_neg h, renamePass_fst]
  simp [h]

theorem collapseStep_mods_new {R : Registry} {root : String} {l : List String} :
    (collapseStep R root l).1.mods (joinNames l) =
      { depsRen l (joinNames l)
          ⟨joinNames l,
            l.foldl (fun acc m => listUnion acc (R.mods m).packages) [],
            l.foldl (fun acc m => listUnion acc (R.mods m).dependencies) [], 0, 0⟩ with
        dependencies :=
          sdel (depsRen l (joinNames l)
            ⟨joinNames l,
              l.foldl (fun acc m => listUnion acc (R.mods m).packages) [],
              l.foldl (fun acc m => listUnion acc (R.mods m).dependencies) [], 0, 0⟩).dependencies
            (joinNames l) } := by
  have heq : (collapseStep R root l).1.mods (joinNames l) =
      { (renamePass l (joinNames l)
          (fun n => if n = joinNames l then
            ⟨joinNames l,
              l.foldl (fun acc m => listUnion acc (R.mods m).packages) [],
              l.foldl (fun acc m => listUnion acc (R.mods m).dependencies) [], 0, 0⟩
            else R.mods n, root)).1 (joinNames l) with
        dependencies :=
          sdel ((renamePass l (joinNames l)
            (fun n => if n = joinNames l then
              ⟨joinNames l,
                l.foldl (fun acc m => listUnion acc (R.mods m).packages) [],
                l.foldl (fun acc m => listUnion acc (R.mods m).dependencies) [], 0, 0⟩
              else R.mods n, root)).1 (joinNames l)).dependencies (joinNames l) } := by
    have : (collapseStep R root l).1.mods (joinNames l) =
        if joinNames l = joinNames l then _ else _ := rfl
    rw [this, if_pos rfl]
  simp only [heq, renamePass_fst]
  simp

theorem collapseStep_new_dep_mem {R : Registry} {root : String} {l : List String}
    (hnew : joinNames l ∉ l) {d : String} :
    d ∈ ((collapseStep R root l).1.mods (joinNames l)).dependencies ↔
      d ≠ joinNames l ∧ d ∉ l ∧ ∃ m ∈ l, d ∈ (R.mods m).dependencies := by
  rw [@collapseStep_mods_new R root l]
  show d ∈ sdel _ _ ↔ _
  rw [mem_sdel, mem_depsRen l hnew]
  show ((d ∈ l.foldl (fun acc m => listUnion acc (R.mods m).dependencies) [] ∧ d ∉ l) ∨ _) ∧ _ ↔ _
  rw [mem_unionFoldl]
  simp only [List.not_mem_nil, false_or]
  constructor
  · rintro ⟨⟨hm, hl⟩ | ⟨hd, _⟩, hne⟩
    · exact ⟨hne, hl, hm⟩
    · exact absurd hd hne
  · rintro ⟨hne, hl, hm⟩
    exact ⟨Or.inl ⟨hm, hl⟩, hne⟩

theorem collapseStep_new_packages {R : Registry} {root : String} {l : List String} :
    ((collapseStep R root l).1.mods (joinNames l)).packages =
      l.foldl (fun acc m => listUnion acc (R.mods m).packages) [] := by
  rw [@collapseStep_mods_new R root l]
  show (depsRen l _ _).packages = _
  rw [depsRen_packages]

theorem collapseStep_ne_dep_mem {R : Registry} {root : String} {l : List String}
    {n : String} (h : n ≠ joinNames l) (hnew : joinNames l ∉ l) {d : String} :
    d ∈ ((collapseStep R root l).1.mods n).dependencies ↔
      (d ∈ (R.mods n).dependencies ∧ d ∉ l) ∨
        (d = joinNames l ∧ ∃ m ∈ l, m ∈ (R.mods n).dependencies) := by
  rw [collapseStep_mods_ne h, mem_depsRen l hnew]

theorem collapseStep_noDangling {R : Registry} {root : String} {l : List String}
    (hdg : NoDangling R) (hsub : ∀ x ∈ l, x ∈ R.dom) (hnew : joinNames l ∉ l) :
    NoDangling (collapseStep R root l).1 := by
  intro x hx d hd
  rw [collapseStep_dom_mem] at hx ⊢
  obtain ⟨hx1, hx2⟩ := hx
  by_cases hxn : x = joinNames l
  · rw [hxn] at hd
    rw [collapseStep_new_dep_mem hnew] at hd
    obtain ⟨hdne, hdl, m, hm, hdm⟩ := hd
    exact ⟨Or.inr (hdg m (hsub m hm) d hdm), hdl⟩
  · rw [collapseStep_ne_dep_mem hxn hnew] at hd
    rcases hd with ⟨hd1, hd2⟩ | ⟨hd1, _⟩
    · have hxdom : x ∈ R.dom := by
        rcases hx1 with h | h
        · exact absurd h hxn
        · exact h
      exact ⟨Or.inr (hdg x hxdom d hd1), hd2⟩
    · exact ⟨Or.inl hd1, hd1 ▸ hnew⟩

theorem collapseStep_noSelfLoop {R : Registry} {root : String} {l : List String}
    (hs : NoSelfLoop R) (hnew : joinNames l ∉ l) :
    NoSelfLoop (collapseStep R root l).1 := by
  intro x hx hmem
  rw [collapseStep_dom_mem] at hx
  by_cases hxn : x = joinNames l
  · rw [hxn] at hmem
    rw [collapseStep_new_dep_mem hnew] at hmem
    exact hmem.1 rfl
  · rw [collapseStep_ne_dep_mem hxn hnew] at hmem
    rcases hmem with ⟨hd1, _⟩ | ⟨hd1, _⟩
    · have hxdom : x ∈ R.dom := by
        rcases hx.1 with h | h
        · exact absurd h hxn
        · exact h
      exact hs x hxdom hd1
    · exact hxn hd1

theorem collapseStepRootMem {R : Registry} {root : String} {l : List String}
    (hr : root ∈ R.dom) (hnew : joinNames l ∉ l) :
    (collapseStep R root l).2 ∈ (collapseStep R root l).1.dom := by
  rw [collapseStep_root, collapseStep_dom_mem]
  by_cases h : root ∈ l
  · rw [if_pos h]
    exact ⟨Or.inl rfl, hnew⟩
  · rw [if_neg h]
    exact ⟨Or.inr hr, h⟩

theorem collapseStep_card {R : Registry} {root : String} {l : List String}
    (hsub : ∀ x ∈ l, x ∈ R.dom) (hnd : l.Nodup) (h2 : 2 ≤ l.length) :
    (collapseStep R root l).1.dom.card < R.dom.card := by
  have hnew := joinNames_not_mem h2
  have hset : (collapseStep R root l).1.dom = insert (joinNames l) R.dom \ l.toFinset := by
    ext x
    rw [collapseStep_dom_mem]
    simp only [Finset.mem_sdiff, Finset.mem_insert, List.mem_toFinset]
  rw [hset]
  have hsubset : l.toFinset ⊆ insert (joinNames l) R.dom := by
    intro x hx
    rw [List.mem_toFinset] at hx
    exact Finset.mem_insert_of_mem (hsub x hx)
  rw [Finset.card_sdiff hsubset]
  have hlen : l.toFinset.card = l.length := List.toFinset_card_of_nodup hnd
  have h1 : (insert (joinNames l) R.dom).card ≤ R.dom.card + 1 := Finset.card_insert_le _ _
  have h3 : l.toFinset.card ≤ R.dom.card := Finset.card_le_card (by
    intro x hx
    rw [List.mem_toFinset] at hx
    exact hsub x hx)
  omega

/-! ### The collapse loop terminates with an acyclic result -/

theorem visMeasure_nil {R : Registry} : visMeasure R [] = R.dom.card := by
  unfold visMeasure
  congr 1
  exact Finset.filter_true_of_mem (fun x _ => by simp)

theorem detect_found_cycle {R : Registry} {start : String} {l : List String}
    (h : detect R start = .found l) : CycleList R l :=
  detectAux_found_cycle List.nodup_nil (by simp) (List.chain'_singleton start) h

theorem detect_cases {R : Registry} (hdg : NoDangling R) {root : String}
    (hr : root ∈ R.dom) :
    (∃ l, detect R root = .found l) ∨ detect R root = .noLoop := by
  cases hd : detect R root with
  | found l => exact Or.inl ⟨l, rfl⟩
  | noLoop => exact Or.inr rfl
  | dangling w => exact absurd hd (detectAux_ne_dangling hdg hr)
  | fuelOut =>
      exact absurd hd (detectAux_ne_fuelOut (by rw [visMeasure_nil]; omega))

/-- Master run lemma for the collapse loop: from any registry satisfying
the invariants, with fuel one more than the module count, the loop reaches
a registry in which `_detect_loop` finds nothing, and the invariants still
hold with the root a registry key. -/
theorem collapseLoop_run :
    ∀ (n : Nat) (R : Registry) (root : String),
      NoSelfLoop R → NoDangling R → root ∈ R.dom → R.dom.card ≤ n →
      ∃ R2 root2, collapseLoop (n + 1) R root = some (R2, root2) ∧
        NoSelfLoop R2 ∧ NoDangling R2 ∧ root2 ∈ R2.dom ∧
        detect R2 root2 = .noLoop := by
  intro n
  induction n with
  | zero =>
      intro R root hs hdg hr hc
      have : 0 < R.dom.card := Finset.card_pos.mpr ⟨root, hr⟩
      omega
  | succ k ih =>
      intro R root hs hdg hr hc
      rcases detect_cases hdg hr with ⟨l, hl⟩ | hnl
      · have hcyc := detect_found_cycle hl
        obtain ⟨hne, hnd, hdom, hch, hwrap⟩ := hcyc
        have h2 : 2 ≤ l.length := cycleList_two_le hs ⟨hne, hnd, hdom, hch, hwrap⟩
        have hnew := joinNames_not_mem h2
        have hcard := @collapseStep_card R root l hdom hnd h2
        have hs2 := @collapseStep_noSelfLoop R root l hs hnew
        have hdg2 := @collapseStep_noDangling R root l hdg hdom hnew
        have hr2 := @collapseStepRootMem R root l hr hnew
        obtain ⟨R2, root2, hrun, p1, p2, p3, p4⟩ :=
          ih (collapseStep R root l).1 (collapseStep R root l).2 hs2 hdg2 hr2 (by omega)
        refine ⟨R2, root2, ?_, p1, p2, p3, p4⟩
        show collapseLoop (k + 1 + 1) R root = _
        unfold collapseLoop
        rw [hl]
        exact hrun
      · refine ⟨R, root, ?_, hs, hdg, hr, hnl⟩
        unfold collapseLoop
        rw [hnl]

/-! ### Builder invariants and order independence of `get_modules` -/

/-- Two registries with the same key set and the same lookup are equal. -/
theorem registry_eq {R S : Registry} (h1 : R.dom = S.dom) (h2 : R.mods = S.mods) :
    R = S := by
  cases R
  cases S
  cases h1
  cases h2
  rfl

theorem buildInv_start (f : String → List String) (root_pkg : String) :
    BuildInv f root_pkg (startState root_pkg) := by
  constructor
  · intro m hm; simp [startState, emptyRegistry] at hm
  · intro m hm; simp [startState, emptyRegistry] at hm
  · intro m hm; simp [startState, emptyRegistry] at hm
  · intro m hm; simp [startState, emptyRegistry] at hm
  · intro m hm; simp [startState, emptyRegistry] at hm
  · intro q hq
    simp only [startState, List.mem_singleton] at hq
    rw [hq]
  · intro m hm; simp [startState, emptyRegistry] at hm
  · exact Or.inl (by simp [startState])

theorem mem_depFold {nm : String} :
    ∀ (imports : List String) (ds : List String) (d : String),
      d ∈ imports.foldl
        (fun ds i => if topLevel i = nm then ds else sadd ds (topLevel i)) ds ↔
      d ∈ ds ∨ (d ≠ nm ∧ ∃ i ∈ imports, topLevel i = d) := by
  intro imports
  induction imports with
  | nil => simp
  | cons i t ih =>
      intro ds d
      simp only [List.foldl_cons]
      by_cases hi : topLevel i = nm
      · rw [if_pos hi, ih]
        constructor
        · rintro (h | ⟨h1, j, hj, hj2⟩)
          · exact Or.inl h
          · exact Or.inr ⟨h1, j, List.mem_cons_of_mem i hj, hj2⟩
        · rintro (h | ⟨h1, j, hj, hj2⟩)
          · exact Or.inl h
          · rcases List.mem_cons.mp hj with h2 | h2
            · exact absurd (by rw [← hj2, h2, hi]) h1
            · exact Or.inr ⟨h1, j, h2, hj2⟩
      · rw [if_neg hi, ih]
        simp only [mem_sadd]
        constructor
        · rintro (⟨h | h⟩ | ⟨h1, j, hj, hj2⟩)
          · exact Or.inl h
          · exact Or.inr ⟨h ▸ hi, i, List.mem_cons_self i t, h.symm⟩
          · exact Or.inr ⟨h1, j, List.mem_cons_of_mem i hj, hj2⟩
        · rintro (h | ⟨h1, j, hj, hj2⟩)
          · exact Or.inl (Or.inl h)
          · rcases List.mem_cons.mp hj with h2 | h2
            · exact Or.inl (Or.inr (by rw [← hj2, h2]))
            · exact Or.inr ⟨h1, j, h2, hj2⟩

theorem procReg_dom (f : String → List String) (R : Registry) (pkg : String) :
    (procReg f R pkg).dom = insert (topLevel pkg) R.dom := by
  simp only [procReg]
  split <;> rfl

theorem procReg_mods_ne (f : String → List String) (R : Registry) (pkg : String)
    {n : String} (h : n ≠ topLevel pkg) :
    (procReg f R pkg).mods n = R.mods n := by
  simp only [procReg]
  split <;> simp [h]

theorem procReg_mods_skip (f : String → List String) (R : Registry) (pkg : String)
    (hskip : pkg ∈ (pickM R (topLevel pkg)).packages) :
    (procReg f R pkg).mods (topLevel pkg) = pickM R (topLevel pkg) := by
  simp only [procReg]
  rw [if_pos hskip]
  simp

theorem procReg_mods_proc (f : String → List String) (R : Registry) (pkg : String)
    (hskip : pkg ∉ (pickM R (topLevel pkg)).packages) :
    (procReg f R pkg).mods (topLevel pkg) = procMod f R pkg := by
  simp only [procReg]
  rw [if_neg hskip]
  simp

theorem buildStep_inv {f : String → List String} {root_pkg : String}
    {s t : BuildState} (hstep : BuildStep f s t)
    (hinv : BuildInv f root_pkg s) : BuildInv f root_pkg t := by
  obtain ⟨l, pkg, r, hq, hq', hreg⟩ := hstep
  by_cases hskip : pkg ∈ (pickM s.reg (topLevel pkg)).packages
  · -- skip branch: the import path was already recorded
    have hmdom : topLevel pkg ∈ s.reg.dom := by
      by_contra hn
      rw [pickM, if_neg hn] at hskip
      simp [freshModule] at hskip
    have hpick : pickM s.reg (topLevel pkg) = s.reg.mods (topLevel pkg) := by
      rw [pickM, if_pos hmdom]
    have hdomRR : (procReg f s.reg pkg).dom = s.reg.dom := by
      simp only [procReg]
      rw [if_pos hskip]
      exact Finset.insert_eq_self.mpr hmdom
    have hmodsRR : ∀ n, (procReg f s.reg pkg).mods n = s.reg.mods n := by
      intro n
      simp only [procReg]
      rw [if_pos hskip]
      show (if n = topLevel pkg then pickM s.reg (topLevel pkg) else s.reg.mods n) = _
      by_cases hn : n = topLevel pkg
      · rw [if_pos hn, hpick, hn]
      · rw [if_neg hn]
    have hRR : procReg f s.reg pkg = s.reg := registry_eq hdomRR (funext hmodsRR)
    have hpush : procPushes f s.reg pkg = [] := by
      rw [procPushes, if_pos hskip]
    have hreg2 : t.reg = s.reg := by rw [hreg, hRR]
    have hq2 : t.queue = l ++ r := by rw [hq', hpush, List.append_nil]
    have hsub : ∀ x ∈ t.queue, x ∈ s.queue := by
      intro x hx
      rw [hq2] at hx
      rw [hq]
      rcases List.mem_append.mp hx with h | h
      · exact List.mem_append.mpr (Or.inl h)
      · exact List.mem_append.mpr (Or.inr (List.mem_cons_of_mem pkg h))
    have hproc : ProcessedR s.reg pkg := ⟨hmdom, by rw [← hpick]; exact hskip⟩
    refine ⟨?_, ?_, ?_, ?_, ?_, ?_, ?_, ?_⟩
    · rw [hreg2]; exact hinv.name_eq
    · rw [hreg2]; exact hinv.pack_top
    · rw [hreg2]; exact hinv.pack_ne
    · rw [hreg2]; exact hinv.deps_char
    · rw [hreg2]; exact hinv.proc_closure
    · intro q hqm
      exact hinv.queue_closure q (hsub q hqm)
    · rw [hreg2]
      intro m hm p hp i hi
      rcases hinv.imports_pending m hm p hp i hi with h | h
      · rw [hq] at h
        rcases List.mem_append.mp h with h2 | h2
        · exact Or.inl (by rw [hq2]; exact List.mem_append.mpr (Or.inl h2))
        · rcases List.mem_cons.mp h2 with h3 | h3
          · exact Or.inr (h3 ▸ hproc)
          · exact Or.inl (by rw [hq2]; exact List.mem_append.mpr (Or.inr h3))
      · exact Or.inr h
    · rw [hreg2]
      rcases hinv.root_pending with h | h
      · rw [hq] at h
        rcases List.mem_append.mp h with h2 | h2
        · exact Or.inl (by rw [hq2]; exact List.mem_append.mpr (Or.inl h2))
        · rcases List.mem_cons.mp h2 with h3 | h3
          · exact Or.inr (h3 ▸ hproc)
          · exact Or.inl (by rw [hq2]; exact List.mem_append.mpr (Or.inr h3))
      · exact Or.inr h
  · -- process branch
    have hpkgq : pkg ∈ s.queue := by
      rw [hq]
      exact List.mem_append.mpr (Or.inr (List.mem_cons_self pkg r))
    have hclos : Relation.ReflTransGen (ImpRel f) root_pkg pkg :=
      hinv.queue_closure pkg hpkgq
    have hpush : procPushes f s.reg pkg = f pkg := by
      rw [procPushes, if_neg hskip]
    have hdomT : t.reg.dom = insert (topLevel pkg) s.reg.dom := by
      rw [hreg, procReg_dom]
    have hmodsTne : ∀ n, n ≠ topLevel pkg → t.reg.mods n = s.reg.mods n := by
      intro n hn
      rw [hreg, procReg_mods_ne f s.reg pkg hn]
    have hmodsTeq : t.reg.mods (topLevel pkg) = procMod f s.reg pkg := by
      rw [hreg, procReg_mods_proc f s.reg pkg hskip]
    have hq2 : t.queue = (l ++ r) ++ f pkg := by rw [hq', hpush]
    -- facts about the picked module M
    have hMname : (pickM s.reg (topLevel pkg)).name = topLevel pkg := by
      rw [pickM]
      by_cases h : topLevel pkg ∈ s.reg.dom
      · rw [if_pos h]
        exact hinv.name_eq _ h
      · rw [if_neg h]
        rfl
    have hMpack_top : ∀ p ∈ (pickM s.reg (topLevel pkg)).packages, topLevel p = topLevel pkg := by
      rw [pickM]
      by_cases h : topLevel pkg ∈ s.reg.dom
      · rw [if_pos h]
        exact hinv.pack_top _ h
      · rw [if_neg h]
        simp [freshModule]
    have hMdeps : ∀ d, d ∈ (pickM s.reg (topLevel pkg)).dependencies ↔
        (d ≠ topLevel pkg ∧
          ∃ p ∈ (pickM s.reg (topLevel pkg)).packages, ∃ i ∈ f p, topLevel i = d) := by
      rw [pickM]
      by_cases h : topLevel pkg ∈ s.reg.dom
      · rw [if_pos h]
        exact hinv.deps_char _ h
      · rw [if_neg h]
        simp [freshModule]
    have hMclos : ∀ p ∈ (pickM s.reg (topLevel pkg)).packages,
        Relation.ReflTransGen (ImpRel f) root_pkg p := by
      rw [pickM]
      by_cases h : topLevel pkg ∈ s.reg.dom
      · rw [if_pos h]
        exact hinv.proc_closure _ h
      · rw [if_neg h]
        simp [freshModule]
    have hMpend : ∀ p ∈ (pickM s.reg (topLevel pkg)).packages, ∀ i ∈ f p,
        i ∈ s.queue ∨ ProcessedR s.reg i := by
      rw [pickM]
      by_cases h : topLevel pkg ∈ s.reg.dom
      · rw [if_pos h]
        exact hinv.imports_pending _ h
      · rw [if_neg h]
        simp [freshModule]
    -- facts about the new module N
    have hNpack : ∀ p, p ∈ (procMod f s.reg pkg).packages ↔
        p ∈ (pickM s.reg (topLevel pkg)).packages ∨ p = pkg := by
      intro p
      show p ∈ sadd _ _ ↔ _
      rw [mem_sadd]
    have hNname : (procMod f s.reg pkg).name = topLevel pkg := hMname
    have hNdeps : ∀ d, d ∈ (procMod f s.reg pkg).dependencies ↔
        d ∈ (pickM s.reg (topLevel pkg)).dependencies ∨
          (d ≠ topLevel pkg ∧ ∃ i ∈ f pkg, topLevel i = d) := by
      intro d
      show d ∈ (f pkg).foldl _ _ ↔ _
      rw [hMname, mem_depFold]
    -- processing monotonicity
    have hmono : ∀ i, ProcessedR s.reg i → ProcessedR t.reg i := by
      intro i hpi
      obtain ⟨hi1, hi2⟩ := hpi
      refine ⟨by rw [hdomT]; exact Finset.mem_insert_of_mem hi1, ?_⟩
      by_cases h : topLevel i = topLevel pkg
      · rw [h, hmodsTeq, hNpack]
        refine Or.inl ?_
        rw [pickM, if_pos (h ▸ hi1), ← h]
        exact hi2
      · rw [hmodsTne _ h]
        exact hi2
    have hprocpkg : ProcessedR t.reg pkg := by
      refine ⟨by rw [hdomT]; exact Finset.mem_insert_self _ _, ?_⟩
      rw [hmodsTeq, hNpack]
      exact Or.inr rfl
    -- queue membership transfer
    have hqtrans : ∀ i, i ∈ s.queue → i ∈ t.queue ∨ i = pkg := by
      intro i hi
      rw [hq] at hi
      rw [hq2]
      rcases List.mem_append.mp hi with h | h
      · exact Or.inl (List.mem_append.mpr (Or.inl (List.mem_append.mpr (Or.inl h))))
      · rcases List.mem_cons.mp h with h2 | h2
        · exact Or.inr h2
        · exact Or.inl (List.mem_append.mpr (Or.inl (List.mem_append.mpr (Or.inr h2))))
    refine ⟨?_, ?_, ?_, ?_, ?_, ?_, ?_, ?_⟩
    · intro m hm
      rw [hdomT] at hm
      by_cases h : m = topLevel pkg
      · rw [h, hmodsTeq, hNname]
      · rw [hmodsTne m h]
        exact hinv.name_eq m (by
          rcases Finset.mem_insert.mp hm with h2 | h2
          · exact absurd h2 h
          · exact h2)
    · intro m hm p hp
      rw [hdomT] at hm
      by_cases h : m = topLevel pkg
      · rw [h, hmodsTeq] at hp
        rcases (hNpack p).mp hp with h2 | h2
        · rw [h]
          exact hMpack_top p h2
        · rw [h2, h]
      · rw [hmodsTne m h] at hp
        exact hinv.pack_top m (by
          rcases Finset.mem_insert.mp hm with h2 | h2
          · exact absurd h2 h
          · exact h2) p hp
    · intro m hm
      rw [hdomT] at hm
      by_cases h : m = topLevel pkg
      · rw [h, hmodsTeq]
        exact sadd_ne_nil
      · rw [hmodsTne m h]
        exact hinv.pack_ne m (by
          rcases Finset.mem_insert.mp hm with h2 | h2
          · exact absurd h2 h
          · exact h2)
    · intro m hm d
      rw [hdomT] at hm
      by_cases h : m = topLevel pkg
      · rw [h, hmodsTeq, hNdeps, hMdeps]
        constructor
        · rintro (⟨h1, p, hp, i, hi, hi2⟩ | ⟨h1, i, hi, hi2⟩)
          · exact ⟨h1, p, (hNpack p).mpr (Or.inl hp), i, hi, hi2⟩
          · exact ⟨h1, pkg, (hNpack pkg).mpr (Or.inr rfl), i, hi, hi2⟩
        · rintro ⟨h1, p, hp, i, hi, hi2⟩
          rcases (hNpack p).mp hp with h2 | h2
          · exact Or.inl ⟨h1, p, h2, i, hi, hi2⟩
          · exact Or.inr ⟨h1, i, h2 ▸ hi, hi2⟩
      · rw [hmodsTne m h]
        exact hinv.deps_char m (by
          rcases Finset.mem_insert.mp hm with h2 | h2
          · exact absurd h2 h
          · exact h2) d
    · intro m hm p hp
      rw [hdomT] at hm
      by_cases h : m = topLevel pkg
      · rw [h, hmodsTeq] at hp
        rcases (hNpack p).mp hp with h2 | h2
        · exact hMclos p h2
        · exact h2 ▸ hclos
      · rw [hmodsTne m h] at hp
        exact hinv.proc_closure m (by
          rcases Finset.mem_insert.mp hm with h2 | h2
          · exact absurd h2 h
          · exact h2) p hp
    · intro x hx
      rw [hq2] at hx
      rcases List.mem_append.mp hx with h | h
      · refine hinv.queue_closure x ?_
        rw [hq]
        rcases List.mem_append.mp h with h2 | h2
        · exact List.mem_append.mpr (Or.inl h2)
        · exact List.mem_append.mpr (Or.inr (List.mem_cons_of_mem pkg h2))
      · exact Relation.ReflTransGen.tail hclos h
    · intro m hm p hp i hi
      rw [hdomT] at hm
      by_cases h : m = topLevel pkg
      · rw [h, hmodsTeq] at hp
        rcases (hNpack p).mp hp with h2 | h2
        · rcases hMpend p h2 i hi with h3 | h3
          · rcases hqtrans i h3 with h4 | h4
            · exact Or.inl h4
            · exact Or.inr (h4 ▸ hprocpkg)
          · exact Or.inr (hmono i h3)
        · refine Or.inl ?_
          rw [hq2]
          exact List.mem_append.mpr (Or.inr (h2 ▸ hi))
      · rw [hmodsTne m h] at hp
        have hm2 : m ∈ s.reg.dom := by
          rcases Finset.mem_insert.mp hm with h2 | h2
          · exact absurd h2 h
          · exact h2
        rcases hinv.imports_pending m hm2 p hp i hi with h3 | h3
        · rcases hqtrans i h3 with h4 | h4
          · exact Or.inl h4
          · exact Or.inr (h4 ▸ hprocpkg)
        · exact Or.inr (hmono i h3)
    · rcases hinv.root_pending with h | h
      · rcases hqtrans root_pkg h with h2 | h2
        · exact Or.inl h2
        · exact Or.inr (h2 ▸ hprocpkg)
      · exact Or.inr (hmono root_pkg h)

theorem buildSteps_inv {f : String → List String} {root_pkg : String}
    {s t : BuildState} (hsteps : BuildSteps f s t)
    (hinv : BuildInv f root_pkg s) : BuildInv f root_pkg t := by
  induction hsteps with
  | refl => exact hinv
  | tail hsteps hstep ih => exact buildStep_inv hstep ih

theorem processed_iff_closure {f : String → List String} {root_pkg : String}
    {s : BuildState} (hinv : BuildInv f root_pkg s) (hq : s.queue = []) :
    ∀ p, ProcessedR s.reg p ↔ Relation.ReflTransGen (ImpRel f) root_pkg p := by
  intro p
  constructor
  · rintro ⟨h1, h2⟩
    exact hinv.proc_closure _ h1 p h2
  · intro h
    induction h with
    | refl =>
        rcases hinv.root_pending with h | h
        · rw [hq] at h
          simp at h
        · exact h
    | tail hsteps hstep ih =>
        obtain ⟨hb1, hb2⟩ := ih
        rcases hinv.imports_pending _ hb1 _ hb2 _ hstep with h | h
        · rw [hq] at h
          simp at h
        · exact h

theorem terminal_dom_char {f : String → List String} {root_pkg : String}
    {s : BuildState} (hinv : BuildInv f root_pkg s) (hq : s.queue = []) :
    ∀ m, m ∈ s.reg.dom ↔
      ∃ p, Relation.ReflTransGen (ImpRel f) root_pkg p ∧ topLevel p = m := by
  intro m
  constructor
  · intro hm
    obtain ⟨p, hp⟩ := List.exists_mem_of_ne_nil _ (hinv.pack_ne m hm)
    exact ⟨p, hinv.proc_closure m hm p hp, hinv.pack_top m hm p hp⟩
  · rintro ⟨p, hp, htl⟩
    have h := (processed_iff_closure hinv hq p).mpr hp
    exact htl ▸ h.1

theorem terminal_packages_char {f : String → List String} {root_pkg : String}
    {s : BuildState} (hinv : BuildInv f root_pkg s) (hq : s.queue = []) :
    ∀ m ∈ s.reg.dom, ∀ q, q ∈ (s.reg.mods m).packages ↔
      Relation.ReflTransGen (ImpRel f) root_pkg q ∧ topLevel q = m := by
  intro m hm q
  constructor
  · intro hqm
    have htl := hinv.pack_top m hm q hqm
    refine ⟨(processed_iff_closure hinv hq q).mp ⟨?_, ?_⟩, htl⟩
    · rw [htl]
      exact hm
    · rw [htl]
      exact hqm
  · rintro ⟨hcl, htl⟩
    obtain ⟨hp1, hp2⟩ := (processed_iff_closure hinv hq q).mpr hcl
    rw [htl] at hp2
    exact hp2

theorem terminal_noDangling {f : String → List String} {root_pkg : String}
    {s : BuildState} (hinv : BuildInv f root_pkg s) (hq : s.queue = []) :
    NoDangling s.reg := by
  intro m hm d hd
  rw [hinv.deps_char m hm d] at hd
  obtain ⟨hne, p, hp, i, hi, htl⟩ := hd
  rcases hinv.imports_pending m hm p hp i hi with h | h
  · rw [hq] at h
    simp at h
  · exact htl ▸ h.1

theorem builder_noSelfLoop {f : String → List String} {root_pkg : String}
    {s : BuildState} (hinv : BuildInv f root_pkg s) :
    NoSelfLoop s.reg := by
  intro m hm hmem
  rw [hinv.deps_char m hm m] at hmem
  exact hmem.1 rfl

/-- Any two complete runs of the builder (whatever pop order each used)
produce the same registry: same key set, same packages per module, same
dependency set per module. -/
theorem terminal_unique {f : String → List String} {root_pkg : String}
    {s1 s2 : BuildState}
    (h1 : BuildSteps f (startState root_pkg) s1) (e1 : s1.queue = [])
    (h2 : BuildSteps f (startState root_pkg) s2) (e2 : s2.queue = []) :
    s1.reg.dom = s2.reg.dom ∧
      (∀ m ∈ s1.reg.dom, ∀ q,
        q ∈ (s1.reg.mods m).packages ↔ q ∈ (s2.reg.mods m).packages) ∧
      (∀ m ∈ s1.reg.dom, ∀ d,
        d ∈ (s1.reg.mods m).dependencies ↔ d ∈ (s2.reg.mods m).dependencies) := by
  have hinv1 := buildSteps_inv h1 (buildInv_start f root_pkg)
  have hinv2 := buildSteps_inv h2 (buildInv_start f root_pkg)
  have hdom : s1.reg.dom = s2.reg.dom := by
    ext m
    rw [terminal_dom_char hinv1 e1 m, terminal_dom_char hinv2 e2 m]
  have hpack : ∀ m ∈ s1.reg.dom, ∀ q,
      q ∈ (s1.reg.mods m).packages ↔ q ∈ (s2.reg.mods m).packages := by
    intro m hm q
    have hm2 : m ∈ s2.reg.dom := hdom ▸ hm
    rw [terminal_packages_char hinv1 e1 m hm q,
      terminal_packages_char hinv2 e2 m hm2 q]
  refine ⟨hdom, hpack, ?_⟩
  intro m hm d
  have hm2 : m ∈ s2.reg.dom := hdom ▸ hm
  rw [hinv1.deps_char m hm d, hinv2.deps_char m hm2 d]
  constructor
  · rintro ⟨hne, p, hp, rest⟩
    exact ⟨hne, p, (hpack m hm p).mp hp, rest⟩
  · rintro ⟨hne, p, hp, rest⟩
    exact ⟨hne, p, (hpack m hm p).mpr hp, rest⟩

theorem getLast?_decomp {α : Type} :
    ∀ {l : List α} {a : α}, l.getLast? = some a → l = l.dropLast ++ [a] := by
  intro l
  induction l with
  | nil => intro a h; simp at h
  | cons x t ih =>
      intro a h
      cases t with
      | nil =>
          simp at h
          rw [h]
          rfl
      | cons y t2 =>
          rw [List.getLast?_cons_cons] at h
          have := ih h
          show x :: (y :: t2) = (x :: (y :: t2)).dropLast ++ [a]
          rw [List.dropLast_cons₂, List.cons_append, ← this]

/-- A complete deterministic run of the `get_modules` loop is a complete
run of the nondeterministic step relation. -/
theorem getModulesAux_steps {f : String → List String} :
    ∀ (fuel : Nat) (s : BuildState) (R : Registry),
      getModulesAux f fuel s = some R → BuildSteps f s ⟨[], R⟩ := by
  intro fuel
  induction fuel with
  | zero => intro s R h; simp [getModulesAux] at h
  | succ fuel ih =>
      intro s R h
      unfold getModulesAux at h
      cases hl : s.queue.getLast? with
      | none =>
          rw [hl] at h
          simp only [Option.some.injEq] at h
          have hq : s.queue = [] := List.getLast?_eq_none_iff.mp hl
          have hs : s = ⟨[], R⟩ := by
            rcases s with ⟨q, reg⟩
            simp only at hq h
            rw [hq, h]
          rw [hs]
          exact Relation.ReflTransGen.refl
      | some pkg =>
          rw [hl] at h
          have hdec := getLast?_decomp hl
          have hstep : BuildStep f s
              ⟨s.queue.dropLast ++ procPushes f s.reg pkg, procReg f s.reg pkg⟩ := by
            refine ⟨s.queue.dropLast, pkg, [], ?_, ?_, rfl⟩
            · exact hdec
            · simp
          exact Relation.ReflTransGen.head hstep (ih _ _ h)

/-! ### Lemmas about the pruning phase of `collapse_modules` -/

theorem pruneFrame_refl (R : Registry) : PruneFrame R R :=
  ⟨rfl, fun n => ⟨rfl, rfl, rfl, rfl, fun d hd => hd⟩⟩

theorem pruneFrame_trans {R1 R2 R3 : Registry}
    (h12 : PruneFrame R1 R2) (h23 : PruneFrame R2 R3) : PruneFrame R1 R3 := by
  obtain ⟨hd12, hm12⟩ := h12
  obtain ⟨hd23, hm23⟩ := h23
  refine ⟨hd23.trans hd12, fun n => ?_⟩
  obtain ⟨a1, b1, c1, d1, e1⟩ := hm12 n
  obtain ⟨a2, b2, c2, d2, e2⟩ := hm23 n
  exact ⟨a2.trans a1, b2.trans b1, c2.trans c1, d2.trans d1,
    fun d hd => e1 d (e2 d hd)⟩

theorem pruneFrame_noSelfLoop {R R2 : Registry}
    (hf : PruneFrame R R2) (hs : NoSelfLoop R) : NoSelfLoop R2 := by
  intro x hx hmem
  rw [hf.1] at hx
  exact hs x hx ((hf.2 x).2.2.2.2 x hmem)

theorem pruneFrame_noDangling {R R2 : Registry}
    (hf : PruneFrame R R2) (hd : NoDangling R) : NoDangling R2 := by
  intro x hx d hdm
  rw [hf.1] at hx ⊢
  exact hd x hx d ((hf.2 x).2.2.2.2 d hdm)

theorem updateModDeps_frame {R : Registry} {name : String} {ds : List String}
    (hsub : ∀ d ∈ ds, d ∈ (R.mods name).dependencies) :
    PruneFrame R (updateModDeps R name ds) := by
  refine ⟨rfl, fun n => ?_⟩
  by_cases h : n = name
  · rw [h]
    have hmods : (updateModDeps R name ds).mods name =
        { R.mods name with dependencies := ds } := by
      simp [updateModDeps]
    rw [hmods]
    exact ⟨rfl, rfl, rfl, rfl, hsub⟩
  · have hmods : (updateModDeps R name ds).mods n = R.mods n := by
      simp [updateModDeps, h]
    rw [hmods]
    exact ⟨rfl, rfl, rfl, rfl, fun d hd => hd⟩

/-- Removing one edge that `_dependency_can_be_removed` approves preserves
reachability from every node: the two-hop path through the approving
sibling dependency remains. -/
theorem remove_edge_reach {R : Registry} {a b : String}
    (hrm : depsRemovable R a b) (hnsl : NoSelfLoop R) (hnd : NoDangling R) :
    ∀ u v, Relation.ReflTransGen (Edge R) u v ↔
      Relation.ReflTransGen
        (Edge (updateModDeps R a (sdel (R.mods a).dependencies b))) u v := by
  set R2 := updateModDeps R a (sdel (R.mods a).dependencies b) with hR2
  have hmods_ne : ∀ n, n ≠ a → R2.mods n = R.mods n := by
    intro n hn
    rw [hR2]
    simp [updateModDeps, hn]
  have hmods_eq : (R2.mods a).dependencies = sdel (R.mods a).dependencies b := by
    rw [hR2]
    simp [updateModDeps]
  have hdom2 : R2.dom = R.dom := rfl
  intro u v
  constructor
  · intro h
    induction h with
    | refl => exact Relation.ReflTransGen.refl
    | tail hsteps hstep ih =>
        rename_i w z
        obtain ⟨hw, hz⟩ := hstep
        by_cases hwa : w = a
        · by_cases hzb : z = b
          · -- the removed edge: reroute through the approving sibling
            obtain ⟨c, hc, hcb, hbc⟩ := hrm
            have hca : c ≠ a := by
              intro hh
              exact hnsl a (hwa ▸ hw) (hh ▸ hc)
            have hcdom : c ∈ R.dom := hnd a (hwa ▸ hw) c hc
            have e1 : Edge R2 w c := by
              refine ⟨by rw [hdom2]; exact hw, ?_⟩
              rw [hwa, hmods_eq, mem_sdel]
              exact ⟨hc, hcb⟩
            have e2 : Edge R2 c z := by
              refine ⟨by rw [hdom2]; exact hcdom, ?_⟩
              rw [hmods_ne c hca, hzb]
              exact hbc
            exact (ih.tail e1).tail e2
          · have e : Edge R2 w z := by
              refine ⟨by rw [hdom2]; exact hw, ?_⟩
              rw [hwa, hmods_eq, mem_sdel]
              exact ⟨hwa ▸ hz, hzb⟩
            exact ih.tail e
        · have e : Edge R2 w z := by
            refine ⟨by rw [hdom2]; exact hw, ?_⟩
            rw [hmods_ne w hwa]
            exact hz
          exact ih.tail e
  · intro h
    refine Relation.ReflTransGen.mono ?_ h
    intro x y hxy
    obtain ⟨hx, hy⟩ := hxy
    refine ⟨by rw [hdom2] at hx; exact hx, ?_⟩
    by_cases hxa : x = a
    · rw [hxa, hmods_eq, mem_sdel] at hy
      exact hxa ▸ hy.1
    · rw [hmods_ne x hxa] at hy
      exact hy

theorem pruneModDepsAux_master :
    ∀ (fuel : Nat) (R : Registry) (name : String),
      PruneFrame R (pruneModDepsAux fuel R name) ∧
      (NoSelfLoop R → NoDangling R →
        ∀ u v, Relation.ReflTransGen (Edge R) u v ↔
          Relation.ReflTransGen (Edge (pruneModDepsAux fuel R name)) u v) := by
  intro fuel
  induction fuel with
  | zero =>
      intro R name
      exact ⟨pruneFrame_refl R, fun _ _ u v => Iff.rfl⟩
  | succ fuel ih =>
      intro R name
      unfold pruneModDepsAux
      cases hfind : (R.mods name).dependencies.find?
          (fun d => decide (depsRemovable R name d)) with
      | none =>
          exact ⟨pruneFrame_refl R, fun _ _ u v => Iff.rfl⟩
      | some d =>
          have hdmem : d ∈ (R.mods name).dependencies := List.mem_of_find?_eq_some hfind
          have hp := List.find?_some hfind
          have hdrm : depsRemovable R name d := of_decide_eq_true hp
          have hsub : ∀ x ∈ sdel (R.mods name).dependencies d,
              x ∈ (R.mods name).dependencies := by
            intro x hx
            exact (mem_sdel.mp hx).1
          have hframe1 : PruneFrame R (updateModDeps R name (sdel (R.mods name).dependencies d)) :=
            updateModDeps_frame hsub
          obtain ⟨hframe2, hreach2⟩ :=
            ih (updateModDeps R name (sdel (R.mods name).dependencies d)) name
          refine ⟨pruneFrame_trans hframe1 hframe2, ?_⟩
          intro hnsl hnd u v
          have h1 := remove_edge_reach hdrm hnsl hnd u v
          have hnsl1 := pruneFrame_noSelfLoop hframe1 hnsl
          have hnd1 := pruneFrame_noDangling hframe1 hnd
          exact h1.trans (hreach2 hnsl1 hnd1 u v)

theorem pruneLoop_master :
    ∀ (fuel : Nat) (R : Registry) (queue : List String) (R2 : Registry),
      pruneLoop fuel R queue = some R2 →
      PruneFrame R R2 ∧
      (NoSelfLoop R → NoDangling R →
        ∀ u v, Relation.ReflTransGen (Edge R) u v ↔
          Relation.ReflTransGen (Edge R2) u v) := by
  intro fuel
  induction fuel with
  | zero => intro R queue R2 h; simp [pruneLoop] at h
  | succ fuel ih =>
      intro R queue R2 h
      unfold pruneLoop at h
      cases hl : queue.getLast? with
      | none =>
          rw [hl] at h
          simp only [Option.some.injEq] at h
          rw [← h]
          exact ⟨pruneFrame_refl R, fun _ _ u v => Iff.rfl⟩
      | some name =>
          rw [hl] at h
          obtain ⟨hframe1, hreach1⟩ :=
            pruneModDepsAux_master ((R.mods name).dependencies).length R name
          obtain ⟨hframe2, hreach2⟩ := ih _ _ _ h
          refine ⟨pruneFrame_trans hframe1 hframe2, ?_⟩
          intro hnsl hnd u v
          have hnsl1 := pruneFrame_noSelfLoop hframe1 hnsl
          have hnd1 := pruneFrame_noDangling hframe1 hnd
          exact (hreach1 hnsl hnd u v).trans (hreach2 hnsl1 hnd1 u v)

/-- Helper for witnesses: a registry known acyclic because `_detect_loop`
answers `None` from every key. -/
theorem cycleFree_of_detect {R : Registry} (h : ∀ u ∈ R.dom, detect R u = .noLoop) :
    ∀ u, ¬ Relation.TransGen (Edge R) u u := by
  intro u hcyc
  have hfirst : ∀ v, Relation.TransGen (Edge R) u v → ∃ c, Edge R u c := by
    intro v h
    induction h with
    | single e => exact ⟨_, e⟩
    | tail h2 e ih => exact ih
  obtain ⟨c, hc⟩ := hfirst u hcyc
  exact detect_noLoop_no_cycle Relation.ReflTransGen.refl _ _ (h u hc.1) hcyc

/-! ### Claim theorems -/

/-- C1: for every finite registry with no self-loops and no dangling
dependency edges, each iteration of the collapse loop of
`collapse_modules` strictly decreases the number of modules, the loop
terminates within module-count iterations (fuel one more than the module
count returns a result), and afterwards no cycle of dependency edges is
reachable from the (possibly renamed) root name. -/
theorem collapse_modules_terminates_acyclic (R : Registry) (root : String)
    (hs : NoSelfLoop R) (hd : NoDangling R) (hr : root ∈ R.dom) :
    (∀ l, detect R root = .found l →
      (collapseStep R root l).1.dom.card < R.dom.card) ∧
    ∃ R2 root2, collapseLoop (R.dom.card + 1) R root = some (R2, root2) ∧
      ∀ u, Relation.ReflTransGen (Edge R2) root2 u →
        ¬ Relation.TransGen (Edge R2) u u := by
  constructor
  · intro l hl
    have hcyc := detect_found_cycle hl
    have h2 := cycleList_two_le hs hcyc
    exact collapseStep_card hcyc.2.2.1 hcyc.2.1 h2
  · obtain ⟨R2, root2, hrun, p1, p2, p3, p4⟩ :=
      collapseLoop_run R.dom.card R root hs hd hr (le_refl _)
    refine ⟨R2, root2, hrun, ?_⟩
    intro u hreach
    exact detect_noLoop_no_cycle hreach _ _ p4

/-- Witness for C1 on the concrete two-module cycle. -/
theorem collapse_modules_terminates_acyclic_witness :
    NoSelfLoop twoCycleReg ∧ NoDangling twoCycleReg ∧ "A" ∈ twoCycleReg.dom ∧
    ((∀ l, detect twoCycleReg "A" = .found l →
        (collapseStep twoCycleReg "A" l).1.dom.card < twoCycleReg.dom.card) ∧
      ∃ R2 root2,
        collapseLoop (twoCycleReg.dom.card + 1) twoCycleReg "A" = some (R2, root2) ∧
        ∀ u, Relation.ReflTransGen (Edge R2) root2 u →
          ¬ Relation.TransGen (Edge R2) u u) :=
  ⟨by decide, by decide, by decide,
    collapse_modules_terminates_acyclic twoCycleReg "A" (by decide) (by decide) (by decide)⟩

/-- C2: for every acyclic registry with no dangling edges, the
edge-pruning phase of `collapse_modules` preserves reachability from the
root: a module name is reachable from the root via dependency edges before
pruning if and only if it is reachable after pruning. -/
theorem prune_preserves_reachability (fuel : Nat) (R : Registry) (root : String)
    (R2 : Registry)
    (hacyc : ∀ u, ¬ Relation.TransGen (Edge R) u u)
    (hnd : NoDangling R)
    (hrun : pruneLoop fuel R [root] = some R2) :
    ∀ n, Relation.ReflTransGen (Edge R) root n ↔
      Relation.ReflTransGen (Edge R2) root n := by
  have hnsl : NoSelfLoop R := by
    intro x hx hmem
    exact hacyc x (Relation.TransGen.single ⟨hx, hmem⟩)
  intro n
  exact (pruneLoop_master fuel R [root] R2 hrun).2 hnsl hnd root n

/-- Witness for C2 on the concrete diamond registry. -/
theorem prune_preserves_reachability_witness :
    NoDangling diamondReg ∧
    (Relation.ReflTransGen (Edge diamondReg) "A" "D" ↔
      Relation.ReflTransGen (Edge diamondPruned) "A" "D") :=
  ⟨by decide,
    prune_preserves_reachability 7 diamondReg "A" diamondPruned
      (cycleFree_of_detect (by decide)) (by decide) rfl "D"⟩

/-- C3: no dangling edges — after a complete run of `get_modules`, after
each iteration of the collapse loop of `collapse_modules`, and after the
pruning phase, every name in any module's dependency set is a registry
key. -/
theorem no_dangling_after_each_phase :
    (∀ (f : String → List String) (root_pkg : String) (s : BuildState),
      BuildSteps f (startState root_pkg) s → s.queue = [] → NoDangling s.reg) ∧
    (∀ (R : Registry) (root : String) (l : List String),
      NoDangling R → NoSelfLoop R → detect R root = .found l →
      NoDangling (collapseStep R root l).1) ∧
    (∀ (fuel : Nat) (R : Registry) (queue : List String) (R2 : Registry),
      pruneLoop fuel R queue = some R2 → NoDangling R → NoDangling R2) := by
  refine ⟨?_, ?_, ?_⟩
  · intro f root_pkg s hsteps hq
    exact terminal_noDangling (buildSteps_inv hsteps (buildInv_start f root_pkg)) hq
  · intro R root l hnd hnsl hl
    have hcyc := detect_found_cycle hl
    have h2 := cycleList_two_le hnsl hcyc
    exact collapseStep_noDangling hnd hcyc.2.2.1 (joinNames_not_mem h2)
  · intro fuel R queue R2 hrun hnd
    exact pruneFrame_noDangling (pruneLoop_master fuel R queue R2 hrun).1 hnd

/-- Witness for C3 on concrete runs of all three phases. -/
theorem no_dangling_after_each_phase_witness :
    NoDangling c9WitnessState.reg ∧
    NoDangling (collapseStep twoCycleReg "A" ["A", "B"]).1 ∧
    NoDangling diamondPruned := by
  have hstep : BuildStep (fun _ => []) (startState "a") c9WitnessState :=
    ⟨[], "a", [], rfl, by decide, rfl⟩
  refine ⟨?_, ?_, ?_⟩
  · exact no_dangling_after_each_phase.1 (fun _ => []) "a" c9WitnessState
      (Relation.ReflTransGen.single hstep) rfl
  · exact no_dangling_after_each_phase.2.1 twoCycleReg "A" ["A", "B"]
      (by decide) (by decide) (by decide)
  · exact no_dangling_after_each_phase.2.2 7 diamondReg ["A"] diamondPruned
      rfl (by decide)

/-- C4: no self-loops — after a complete run of `get_modules`, after each
iteration of the collapse loop, and after the pruning phase, no module has
its own name in its dependency set. -/
theorem no_self_loop_after_each_phase :
    (∀ (f : String → List String) (root_pkg : String) (s : BuildState),
      BuildSteps f (startState root_pkg) s → s.queue = [] → NoSelfLoop s.reg) ∧
    (∀ (R : Registry) (root : String) (l : List String),
      NoSelfLoop R → detect R root = .found l →
      NoSelfLoop (collapseStep R root l).1) ∧
    (∀ (fuel : Nat) (R : Registry) (queue : List String) (R2 : Registry),
      pruneLoop fuel R queue = some R2 → NoSelfLoop R → NoSelfLoop R2) := by
  refine ⟨?_, ?_, ?_⟩
  · intro f root_pkg s hsteps _
    exact builder_noSelfLoop (buildSteps_inv hsteps (buildInv_start f root_pkg))
  · intro R root l hnsl hl
    have hcyc := detect_found_cycle hl
    have h2 := cycleList_two_le hnsl hcyc
    exact collapseStep_noSelfLoop hnsl (joinNames_not_mem h2)
  · intro fuel R queue R2 hrun hnsl
    exact pruneFrame_noSelfLoop (pruneLoop_master fuel R queue R2 hrun).1 hnsl

/-- Witness for C4 on concrete runs of all three phases. -/
theorem no_self_loop_after_each_phase_witness :
    NoSelfLoop c9WitnessState.reg ∧
    NoSelfLoop (collapseStep twoCycleReg "A" ["A", "B"]).1 ∧
    NoSelfLoop diamondPruned := by
  have hstep : BuildStep (fun _ => []) (startState "a") c9WitnessState :=
    ⟨[], "a", [], rfl, by decide, rfl⟩
  refine ⟨?_, ?_, ?_⟩
  · exact no_self_loop_after_each_phase.1 (fun _ => []) "a" c9WitnessState
      (Relation.ReflTransGen.single hstep) rfl
  · exact no_self_loop_after_each_phase.2.1 twoCycleReg "A" ["A", "B"]
      (by decide) (by decide)
  · exact no_self_loop_after_each_phase.2.2 7 diamondReg ["A"] diamondPruned
      rfl (by decide)

/-- C5: on the registry with exactly the 2-cycle A ↔ B and root A, one
iteration of the collapse loop detects the cycle with members exactly A
and B, merges them into the single composite module (named by joining the
member names), whose packages are the union of both packages sets and
whose dependency set is empty, and reassigns the root to the composite's
name. -/
theorem two_cycle_collapse :
    detect twoCycleReg "A" = .found ["A", "B"] ∧
    (collapseStep twoCycleReg "A" ["A", "B"]).2 = "A\nB" ∧
    (collapseStep twoCycleReg "A" ["A", "B"]).1.dom = {"A\nB"} ∧
    ((collapseStep twoCycleReg "A" ["A", "B"]).1.mods "A\nB").packages = ["A", "B"] ∧
    ((collapseStep twoCycleReg "A" ["A", "B"]).1.mods "A\nB").dependencies = [] :=
  ⟨by decide, by decide, by decide, by decide, by decide⟩

/-- C6: when the deps-only probe exceeds the total probe,
`_set_rss_for_module` clamps `own_rss` to exactly zero, records the
warning, and returns normally. -/
theorem negative_delta_clamped (probe : List String → Int) (R : Registry)
    (name : String)
    (hlt : probe (R.mods name).packages < probe (depsPackagesUnion R name)) :
    ((setRssForModule probe R name).1.mods name).own_rss = 0 ∧
    (setRssForModule probe R name).2 = true := by
  have hneg : probe (R.mods name).packages - probe (depsPackagesUnion R name) < 0 := by
    omega
  simp only [setRssForModule]
  rw [if_pos hneg]
  exact ⟨by simp, rfl⟩

/-- Witness for C6: total probe 100, deps probe 120. -/
theorem negative_delta_clamped_witness :
    ((fun l => if l = ["m"] then (100 : Int) else 120) (rssReg.mods "m").packages <
      (fun l => if l = ["m"] then (100 : Int) else 120) (depsPackagesUnion rssReg "m")) ∧
    ((setRssForModule (fun l => if l = ["m"] then (100 : Int) else 120) rssReg "m").1.mods
        "m").own_rss = 0 ∧
    (setRssForModule (fun l => if l = ["m"] then (100 : Int) else 120) rssReg "m").2 = true :=
  ⟨by decide,
    negative_delta_clamped (fun l => if l = ["m"] then (100 : Int) else 120) rssReg "m"
      (by decide)⟩

/-- C7: for a module with an empty dependency set, under the zero baseline
for the empty probe fixed by the specification (and a non-negative total
probe), `_set_rss_for_module` leaves `own_rss` equal to `total_rss`. -/
theorem leaf_attribution (probe : List String → Int) (R : Registry) (name : String)
    (hdeps : (R.mods name).dependencies = [])
    (hempty : probe [] = 0)
    (hpos : 0 ≤ probe (R.mods name).packages) :
    ((setRssForModule probe R name).1.mods name).own_rss =
      ((setRssForModule probe R name).1.mods name).total_rss := by
  have hdu : depsPackagesUnion R name = [] := by
    unfold depsPackagesUnion
    rw [hdeps]
    rfl
  have hcond : ¬ (probe (R.mods name).packages - probe (depsPackagesUnion R name) < 0) := by
    rw [hdu, hempty]
    omega
  simp only [setRssForModule]
  rw [if_neg hcond]
  simp [hdu, hempty]

/-- Witness for C7 on a concrete leaf module. -/
theorem leaf_attribution_witness :
    (leafReg.mods "m").dependencies = [] ∧
    ((fun l : List String => if l = [] then (0 : Int) else 5) [] = 0) ∧
    (0 ≤ (fun l : List String => if l = [] then (0 : Int) else 5) (leafReg.mods "m").packages) ∧
    ((setRssForModule (fun l : List String => if l = [] then (0 : Int) else 5) leafReg "m").1.mods
        "m").own_rss =
      ((setRssForModule (fun l : List String => if l = [] then (0 : Int) else 5) leafReg "m").1.mods
        "m").total_rss :=
  ⟨by decide, by decide, by decide,
    leaf_attribution (fun l : List String => if l = [] then (0 : Int) else 5) leafReg "m"
      (by decide) (by decide) (by decide)⟩

/-- C8: the claim that a numeric counter disambiguates node identifiers is
contradicted by the code — `print_dot` initialises `counter = 0` and never
increments it, so the two distinct module names `A\nB` (a composite) and
`A_B` sanitize to the same identifier `node0_A_B`. -/
theorem dot_node_id_collision :
    (("A\nB" : String) ≠ "A_B") ∧
    printDotNodeIds [⟨"A\nB", [], [], 0, 0⟩, ⟨"A_B", [], [], 0, 0⟩] =
      ["node0_A_B", "node0_A_B"] :=
  ⟨by decide, by decide⟩

/-- C9: any two complete runs of `get_modules` with the same deterministic
tracer, whatever order each pops work-queue entries in, produce the same
registry — same key set, same packages set and same dependency set for
every module — and the returned root name is the same function
`topLevel` of the root package in every run. -/
theorem get_modules_order_independent (f : String → List String) (root_pkg : String)
    (s1 s2 : BuildState)
    (h1 : BuildSteps f (startState root_pkg) s1) (e1 : s1.queue = [])
    (h2 : BuildSteps f (startState root_pkg) s2) (e2 : s2.queue = []) :
    s1.reg.dom = s2.reg.dom ∧
    (∀ m ∈ s1.reg.dom, ∀ q,
      q ∈ (s1.reg.mods m).packages ↔ q ∈ (s2.reg.mods m).packages) ∧
    (∀ m ∈ s1.reg.dom, ∀ d,
      d ∈ (s1.reg.mods m).dependencies ↔ d ∈ (s2.reg.mods m).dependencies) ∧
    (∀ fuel R r, getModules f fuel root_pkg = some (R, r) → r = topLevel root_pkg) := by
  obtain ⟨hdom, hpack, hdeps⟩ := terminal_unique h1 e1 h2 e2
  refine ⟨hdom, hpack, hdeps, ?_⟩
  intro fuel R r hrun
  unfold getModules at hrun
  cases haux : getModulesAux f fuel (startState root_pkg) with
  | none => rw [haux] at hrun; simp at hrun
  | some R0 =>
      rw [haux] at hrun
      simp at hrun
      exact hrun.2.symm

/-- Witness for C9: the same one-step complete run used twice. -/
theorem get_modules_order_independent_witness :
    c9WitnessState.queue = [] ∧
    (c9WitnessState.reg.dom = c9WitnessState.reg.dom ∧
      (∀ m ∈ c9WitnessState.reg.dom, ∀ q,
        q ∈ (c9WitnessState.reg.mods m).packages ↔
          q ∈ (c9WitnessState.reg.mods m).packages) ∧
      (∀ m ∈ c9WitnessState.reg.dom, ∀ d,
        d ∈ (c9WitnessState.reg.mods m).dependencies ↔
          d ∈ (c9WitnessState.reg.mods m).dependencies) ∧
      (∀ fuel R r, getModules (fun _ => []) fuel "a" = some (R, r) →
        r = topLevel "a")) := by
  have hstep : BuildStep (fun _ => []) (startState "a") c9WitnessState :=
    ⟨[], "a", [], rfl, by decide, rfl⟩
  exact ⟨rfl,
    get_modules_order_independent (fun _ => []) "a" c9WitnessState c9WitnessState
      (Relation.ReflTransGen.single hstep) rfl
      (Relation.ReflTransGen.single hstep) rfl⟩

/-- C10: the pruning phase only shrinks dependency sets — it never adds or
removes a module, leaves every module's name, packages and memory figures
unchanged, and every surviving dependency edge existed before. -/
theorem prune_frame_only (fuel : Nat) (R : Registry) (queue : List String)
    (R2 : Registry) (hrun : pruneLoop fuel R queue = some R2) :
    R2.dom = R.dom ∧
    (∀ n, (R2.mods n).name = (R.mods n).name ∧
      (R2.mods n).packages = (R.mods n).packages ∧
      (R2.mods n).own_rss = (R.mods n).own_rss ∧
      (R2.mods n).total_rss = (R.mods n).total_rss) ∧
    (∀ n, ∀ d ∈ (R2.mods n).dependencies, d ∈ (R.mods n).dependencies) := by
  obtain ⟨hdom, hmods⟩ := (pruneLoop_master fuel R queue R2 hrun).1
  exact ⟨hdom,
    fun n => ⟨(hmods n).1, (hmods n).2.1, (hmods n).2.2.1, (hmods n).2.2.2.1⟩,
    fun n => (hmods n).2.2.2.2⟩

/-- Witness for C10 on the concrete diamond registry. -/
theorem prune_frame_only_witness :
    pruneLoop 7 diamondReg ["A"] = some diamondPruned ∧
    diamondPruned.dom = diamondReg.dom ∧
    (diamondPruned.mods "A").packages = (diamondReg.mods "A").packages ∧
    (∀ d ∈ (diamondPruned.mods "A").dependencies,
      d ∈ (diamondReg.mods "A").dependencies) := by
  have hmaster := prune_frame_only 7 diamondReg ["A"] diamondPruned rfl
  exact ⟨rfl, hmaster.1, (hmaster.2.1 "A").2.1, hmaster.2.2 "A"⟩

end Importmem
